import Mathlib

/-!
Header-tree importer of the excel package.

A shallow embedding of `importer.go` and of `Excel.initImporters` and
`Excel.GetSheetRowsWithoutHeader` (`excel.go`): the header tree built from merge
cells, its leaf index, the data row start, the sub-tree lookup, the row scanners and
the header consistency check, followed by the properties proved about them.

Modelling conventions.

* Go `int` values are `Int`; slice indices and lengths are `Nat`.
* A Go `[]string` is a `List String`; the nil slice and the empty slice are both `[]`.
  No `Importer` of the package carries an empty non-nil path (a root is made by
  `new(Importer)`, a child path ends in its own label), and `strings.Split` never
  returns an empty slice, so `reflect.DeepEqual` on the paths compared here is list
  equality.
* `excelize.CellNameToCoordinates` is library code: the functions that call it take
  it as the parameter `conv`, returning `(col, row)` or an error.
* A record handed to a scanner (`resps ...interface{}`) is the list of its struct
  fields; a field carries its `ex` tag and its current value. Field values are
  assumed to implement `ImportField`, whose `Translate` is the parameter
  `translate`, returning a value assignable to the field.
* A Go panic recovered by a deferred function is an explicit result of the loops.
* Recursion that the Go code does not bound (`buildImporterTree`) takes a fuel
  argument; `none` means the fuel ran out.
-/

namespace ExcelPkg

/-- Go `error` values produced by the library, by their message. -/
abbrev GoError := String

/-- The constant `_defaultAsyncScanExRowsGoroutineNums`. -/
def _defaultAsyncScanExRowsGoroutineNums : Int := 100

/-- The constant `_colIndexStart`. -/
def _colIndexStart : Int := 1

/-- An `excelize.MergeCell`, by the results of its three getters
`GetStartAxis`, `GetEndAxis` and `GetCellValue`. -/
structure MergeCell where
  startAxis : String
  endAxis : String
  cellValue : String

/-- The type of `excelize.CellNameToCoordinates`: `(col, row)` or an error. -/
abbrev CellNameToCoordinates := String → Except GoError (Int × Int)

/-- The struct `Importer`. -/
structure Importer where
  value : String
  colIndexStart : Int
  colIndexEnd : Int
  rowIndexStart : Int
  rowIndexEnd : Int
  path : List String
  childImporters : List Importer
  leafNodes : List Importer
  asyncScanWorkerNums : Int
  withHumanErrorMsg : Bool

/-- The value of `new(Importer)`. -/
def Importer.new : Importer :=
  { value := "", colIndexStart := 0, colIndexEnd := 0, rowIndexStart := 0, rowIndexEnd := 0,
    path := [], childImporters := [], leafNodes := [], asyncScanWorkerNums := 0,
    withHumanErrorMsg := false }

/-! ## Tree construction -/

/-- The `for i, cell := range mergeCells` loop of `childrenColBoundaryIndex`, from
index `i` on, with the current values of the named results `start` and `end`. -/
def childrenColBoundaryIndex.loop (conv : CellNameToCoordinates) (root : Importer) :
    List MergeCell → Nat → Int → Int → Except GoError (Int × Int)
  | [], _, start, endIdx => .ok (start, endIdx)
  | cell :: rest, i, start, endIdx =>
    match conv cell.startAxis with
    | .error err => .error err
    | .ok (colIndexStart, rowIndex) =>
      match conv cell.endAxis with
      | .error err => .error err
      | .ok (colIndexEnd, _) =>
        if rowIndex > root.rowIndexEnd ∧ colIndexStart ≥ root.colIndexStart
            ∧ colIndexEnd ≤ root.colIndexEnd then
          let start := if colIndexStart = root.colIndexStart then (i : Int) else start
          if colIndexEnd = root.colIndexEnd then .ok (start, (i : Int))
          else childrenColBoundaryIndex.loop conv root rest (i + 1) start endIdx
        else childrenColBoundaryIndex.loop conv root rest (i + 1) start endIdx

/-- The method `childrenColBoundaryIndex`: `(start, end)` or the conversion error.
`start` begins at 0 and `end` at -1. -/
def childrenColBoundaryIndex (conv : CellNameToCoordinates) (root : Importer)
    (mergeCells : List MergeCell) : Except GoError (Int × Int) :=
  childrenColBoundaryIndex.loop conv root mergeCells 0 0 (-1)

/-- The function `buildNodeByCell`. -/
def buildNodeByCell (conv : CellNameToCoordinates) (mergeCell : MergeCell) :
    Except GoError Importer :=
  match conv mergeCell.startAxis with
  | .error err => .error err
  | .ok (colIndexStart, rowIndexStart) =>
    match conv mergeCell.endAxis with
    | .error err => .error err
    | .ok (colIndexEnd, rowIndexEnd) =>
      .ok { Importer.new with
            value := mergeCell.cellValue
            colIndexStart := colIndexStart
            colIndexEnd := colIndexEnd
            rowIndexStart := rowIndexStart
            rowIndexEnd := rowIndexEnd }

/-- The `for i := start; i <= end; i++` loop of `buildImporterTree` over the cells
`mergeCells[start..end]`; `recur` is the recursive call on a child. -/
def buildImporterTree.loop (conv : CellNameToCoordinates)
    (recur : Importer → Option (Except GoError (List Importer))) (root : Importer) :
    List MergeCell → Option (Except GoError (List Importer))
  | [] => some (.ok [])
  | cell :: rest =>
    match buildNodeByCell conv cell with
    | .error err => some (.error err)
    | .ok node =>
      let node := { node with
                    asyncScanWorkerNums := root.asyncScanWorkerNums
                    withHumanErrorMsg := root.withHumanErrorMsg
                    path := (node.path ++ root.path) ++ [cell.cellValue] }
      match recur node with
      | none => none
      | some (.error err) => some (.error err)
      | some (.ok children) =>
        match buildImporterTree.loop conv recur root rest with
        | none => none
        | some (.error err) => some (.error err)
        | some (.ok res) => some (.ok ({ node with childImporters := children } :: res))

/-- The function `buildImporterTree` for a non-nil `root`, with a bound `fuel` on
the depth of the recursion: `none` when the bound is reached, otherwise the
children or the error. -/
def buildImporterTree (conv : CellNameToCoordinates) :
    Nat → Importer → List MergeCell → Option (Except GoError (List Importer))
  | 0, _, _ => none
  | fuel + 1, root, mergeCells =>
    match childrenColBoundaryIndex conv root mergeCells with
    | .error err => some (.error err)
    | .ok (start, endIdx) =>
      if endIdx < 0 then some (.ok [])
      else
        buildImporterTree.loop conv (fun node => buildImporterTree conv fuel node mergeCells)
          root ((mergeCells.drop start.toNat).take (endIdx + 1 - start).toNat)

/-! ## Leaf index -/

mutual
/-- The method `getLeafNodes` on a non-nil node. -/
def getLeafNodes : Importer → List Importer
  | ⟨value, cs, ce, rs, re, path, childImporters, leafNodes, workers, human⟩ =>
    match childImporters with
    | [] => [⟨value, cs, ce, rs, re, path, [], leafNodes, workers, human⟩]
    | im :: rest => getLeafNodes.children (im :: rest)
/-- The `for _, im := range root.childImporters` loop of `getLeafNodes`. -/
def getLeafNodes.children : List Importer → List Importer
  | [] => []
  | im :: rest => getLeafNodes im ++ getLeafNodes.children rest
end

/-- The leaf list a scanner works with after its first two statements
(`if len(root.leafNodes) == 0 then root.leafNodes = root.getLeafNodes()`). -/
def leafIndex (root : Importer) : List Importer :=
  if root.leafNodes.length = 0 then getLeafNodes root else root.leafNodes

/-! ## Records, paths and translation -/

/-- The function `strings.Split(s, sep)` for a one-character separator. -/
def stringsSplit (s : String) (sep : Char) : List String :=
  (s.toList.splitOn sep).map String.mk

/-- The function `strings.Join(elems, sep)`. -/
def stringsJoin (elems : List String) (sep : String) : String :=
  sep.intercalate elems

/-- A struct field of a record as the scanners see it through `reflect`: the value
of its `ex` tag (empty when the tag is absent) and its current value. -/
structure Field (V : Type) where
  tag : String
  value : V

/-- The type of `ImportField.Translate`: from the field value, the cell text and the
column index to the new value or an error. -/
abbrev Translate (V E : Type) := V → String → Int → Except E V

/-- The errors a scanner returns: the error of `Translate`, the message built in
human-readable mode, or the message built from a recovered panic. -/
inductive ScanError (E : Type) where
  | translate (err : E)
  | human (msg : String)
  | internal (msg : String)
  deriving DecidableEq

/-- The reason a scan loop stops early: a `return leafNode.colIndexStart, err`
statement, or a panic with its value. -/
inductive Abort (E : Type) where
  | failed (colIndexStart : Int) (err : ScanError E)
  | panicked (p : String)

/-- The function `reflect.DeepEqual` on two paths of which the second comes from
`strings.Split`. -/
def deepEqual (a b : List String) : Bool :=
  decide (a = b)

/-- The condition `reflect.DeepEqual(leafNode.path, path)` of `ScanExRow` and
`asyncScanRow`. It cannot panic. -/
def exactMatch (leafPath path : List String) : Except String Bool :=
  .ok (deepEqual leafPath path)

/-- The text of the Go runtime panic for a slice expression `s[low:]` with a
negative low bound. -/
def sliceBoundsPanic (low : Int) : String :=
  "runtime error: slice bounds out of range [" ++ toString low ++ ":]"

/-- The text of the Go runtime panic for an index expression `s[index]` with
`index >= len(s)`. -/
def indexPanic (index length : Nat) : String :=
  "runtime error: index out of range [" ++ toString index ++ "] with length "
    ++ toString length

/-- The condition
`reflect.DeepEqual(leafNode.path[len(leafNode.path)-len(path):], path)` of
`RelativeScanExRow`. The slice expression panics when its low bound is negative. -/
def relativeMatch (leafPath path : List String) : Except String Bool :=
  if (leafPath.length : Int) - (path.length : Int) < 0 then
    .error (sliceBoundsPanic ((leafPath.length : Int) - (path.length : Int)))
  else
    .ok (deepEqual (leafPath.drop (leafPath.length - path.length)) path)

/-- The message of the error built in human-readable mode. -/
def humanErrorMsg (leafNode : Importer) : String :=
  stringsJoin leafNode.path "-" ++ " 单元格填写错误，请检查"

/-! ## Row resize -/

/-- The loop `for i := 0; i < n; i++ then row = append(row, "")`. -/
def appendEmpty : Nat → List String → List String
  | 0, row => row
  | n + 1, row => appendEmpty n (row ++ [""])

/-- The row resize at the head of `ScanExRow`, `RelativeScanExRow` and
`asyncScanRow`, for `leafNodesLength = len(root.leafNodes)`. -/
def resizeRow (leafNodesLength : Nat) (row : List String) : List String :=
  let rowLength := row.length
  let row := if leafNodesLength < rowLength then row.drop (rowLength - leafNodesLength) else row
  if rowLength < leafNodesLength then appendEmpty (leafNodesLength - rowLength) row else row

/-! ## Row scanners -/

/-- What the leaf loop did for one field. -/
inductive LeafLoop (V E : Type) where
  | unmatched
  | set (setValue : V)
  | aborted (a : Abort E)

/-- The loop `for j, leafNode := range root.leafNodes` of `ScanExRow` and
`RelativeScanExRow` for one field with value `v` and binding path `path`, from leaf
index `j` on; `cond` is the matching condition of the `if`. -/
def scanLeaves {V E : Type} (cond : List String → List String → Except String Bool)
    (translate : Translate V E) (withHumanErrorMsg : Bool) (row : List String)
    (path : List String) (v : V) : List Importer → Nat → LeafLoop V E
  | [], _ => .unmatched
  | leafNode :: rest, j =>
    match cond leafNode.path path with
    | .error p => .aborted (.panicked p)
    | .ok false => scanLeaves cond translate withHumanErrorMsg row path v rest (j + 1)
    | .ok true =>
      match row[j]? with
      | none => .aborted (.panicked (indexPanic j row.length))
      | some cell =>
        match translate v cell leafNode.colIndexStart with
        | .error err =>
          if withHumanErrorMsg then
            .aborted (.failed leafNode.colIndexStart (.human (humanErrorMsg leafNode)))
          else
            .aborted (.failed leafNode.colIndexStart (.translate err))
        | .ok setValue => .set setValue

/-- The loop over the fields of one record in `ScanExRow` and `RelativeScanExRow`:
the fields after the loop and the reason it stopped early, if it did. -/
def scanFields {V E : Type} (cond : List String → List String → Except String Bool)
    (translate : Translate V E) (withHumanErrorMsg : Bool) (leafNodes : List Importer)
    (row : List String) : List (Field V) → List (Field V) × Option (Abort E)
  | [] => ([], none)
  | field :: rest =>
    match scanLeaves cond translate withHumanErrorMsg row (stringsSplit field.tag '|')
        field.value leafNodes 0 with
    | .aborted a => (field :: rest, some a)
    | .unmatched =>
      let r := scanFields cond translate withHumanErrorMsg leafNodes row rest
      (field :: r.1, r.2)
    | .set setValue =>
      let r := scanFields cond translate withHumanErrorMsg leafNodes row rest
      ({ field with value := setValue } :: r.1, r.2)

/-- The loop `for _, resp := range resps` of `ScanExRow` and `RelativeScanExRow`. -/
def scanResps {V E : Type} (cond : List String → List String → Except String Bool)
    (translate : Translate V E) (withHumanErrorMsg : Bool) (leafNodes : List Importer)
    (row : List String) : List (List (Field V)) → List (List (Field V)) × Option (Abort E)
  | [] => ([], none)
  | resp :: rest =>
    match scanFields cond translate withHumanErrorMsg leafNodes row resp with
    | (resp1, some a) => (resp1 :: rest, some a)
    | (resp1, none) =>
      let r := scanResps cond translate withHumanErrorMsg leafNodes row rest
      (resp1 :: r.1, r.2)

/-- The result of a row scan: the records as the scan leaves them and the two
results `scanErrColIndex` and `err` (`none` is the nil error). -/
structure ScanResult (V E : Type) where
  resps : List (List (Field V))
  scanErrColIndex : Int
  err : Option (ScanError E)

/-- The common body of `ScanExRow` and `RelativeScanExRow`, which differ in the
matching condition only: lazy leaf index, row resize, the loops, and the deferred
`recover` that turns a panic into the error `ScanExRow: internal error: ...`. -/
def scanExRowWith {V E : Type} (cond : List String → List String → Except String Bool)
    (translate : Translate V E) (root : Importer) (row : List String)
    (resps : List (List (Field V))) : ScanResult V E :=
  let leafNodes := leafIndex root
  let row := resizeRow leafNodes.length row
  match scanResps cond translate root.withHumanErrorMsg leafNodes row resps with
  | (resps1, none) => { resps := resps1, scanErrColIndex := 0, err := none }
  | (resps1, some (.failed colIndexStart err)) =>
    { resps := resps1, scanErrColIndex := colIndexStart, err := some err }
  | (resps1, some (.panicked p)) =>
    { resps := resps1, scanErrColIndex := 0,
      err := some (.internal ("ScanExRow: internal error: " ++ p)) }

/-- The method `ScanExRow`. -/
def ScanExRow {V E : Type} (translate : Translate V E) (root : Importer) (row : List String)
    (resps : List (List (Field V))) : ScanResult V E :=
  scanExRowWith exactMatch translate root row resps

/-- The method `RelativeScanExRow`. -/
def RelativeScanExRow {V E : Type} (translate : Translate V E) (root : Importer)
    (row : List String) (resps : List (List (Field V))) : ScanResult V E :=
  scanExRowWith relativeMatch translate root row resps

/-! ## Batch scanner task -/

/-- The struct `AsyncScanExRes`. -/
structure AsyncScanExRes (V E : Type) where
  Resps : List (List (Field V))
  Err : Option (ScanError E)

/-- The state of one `asyncScanRow` task: the result under construction and the
values sent on the channel so far, oldest first. A sent value is recorded as the
result stood at the time of the send. -/
structure AsyncState (V E : Type) where
  asyncScanExRes : AsyncScanExRes V E
  ch : List (AsyncScanExRes V E)

/-- The loop over the fields of one record in `asyncScanRow`. Its leaf loop is
that of `ScanExRow` up to the failure branch, which stores the error in
`asyncScanExRes.Err`, sends the result and leaves the leaf loop by `break`: the
field loop goes on. The last component is the value of a panic, if one occurred. -/
def asyncScanRow.fields {V E : Type} (translate : Translate V E) (withHumanErrorMsg : Bool)
    (leafNodes : List Importer) (row : List String) :
    List (Field V) → AsyncState V E → List (Field V) × AsyncState V E × Option String
  | [], st => ([], st, none)
  | field :: rest, st =>
    match scanLeaves exactMatch translate withHumanErrorMsg row (stringsSplit field.tag '|')
        field.value leafNodes 0 with
    | .aborted (.panicked p) => (field :: rest, st, some p)
    | .aborted (.failed _ err) =>
      let res := { st.asyncScanExRes with Err := some err }
      let r := asyncScanRow.fields translate withHumanErrorMsg leafNodes row rest
        { asyncScanExRes := res, ch := st.ch ++ [res] }
      (field :: r.1, r.2)
    | .unmatched =>
      let r := asyncScanRow.fields translate withHumanErrorMsg leafNodes row rest st
      (field :: r.1, r.2)
    | .set setValue =>
      let r := asyncScanRow.fields translate withHumanErrorMsg leafNodes row rest st
      ({ field with value := setValue } :: r.1, r.2)

/-- The loop `for _, resp := range resps` of `asyncScanRow`, which appends each
record to `asyncScanExRes.Resps` after its fields. -/
def asyncScanRow.resps {V E : Type} (translate : Translate V E) (withHumanErrorMsg : Bool)
    (leafNodes : List Importer) (row : List String) :
    List (List (Field V)) → AsyncState V E → AsyncState V E × Option String
  | [], st => (st, none)
  | resp :: rest, st =>
    match asyncScanRow.fields translate withHumanErrorMsg leafNodes row resp st with
    | (_, st1, some p) => (st1, some p)
    | (resp1, st1, none) =>
      asyncScanRow.resps translate withHumanErrorMsg leafNodes row rest
        { st1 with asyncScanExRes :=
            { st1.asyncScanExRes with Resps := st1.asyncScanExRes.Resps ++ [resp1] } }

/-- The method `asyncScanRow`: the values it sends on `ch`, in the order sent. -/
def asyncScanRow {V E : Type} (translate : Translate V E) (root : Importer) (row : List String)
    (resps : List (List (Field V))) : List (AsyncScanExRes V E) :=
  let leafNodes := leafIndex root
  let row := resizeRow leafNodes.length row
  match asyncScanRow.resps translate root.withHumanErrorMsg leafNodes row resps
      { asyncScanExRes := { Resps := [], Err := none }, ch := [] } with
  | (st, none) => st.ch ++ [st.asyncScanExRes]
  | (st, some p) =>
    st.ch ++ [{ st.asyncScanExRes with
                Err := some (.internal ("asyncScanRow: internal error: " ++ p)) }]

/-! ## Header consistency -/

/-- How a loop of `IsHeaderConsistent` ended: it ran to its end, it reached the
bare `return` that leaves `isConsistent` false, or it panicked. -/
inductive CheckLoop where
  | completed
  | returned
  | panicked (p : String)

/-- The loop `for i := 0; i < fieldNum; i++` of `IsHeaderConsistent`, from `i` on. -/
def IsHeaderConsistent.fields {V : Type} (leafNodes : List Importer) (lastRespLength : Nat) :
    List (Field V) → Nat → CheckLoop
  | [], _ => .completed
  | field :: rest, i =>
    match leafNodes[lastRespLength + i]? with
    | none => .panicked (indexPanic (lastRespLength + i) leafNodes.length)
    | some leafNode =>
      if !deepEqual leafNode.path (stringsSplit field.tag '|') then .returned
      else IsHeaderConsistent.fields leafNodes lastRespLength rest (i + 1)

/-- The loop `for _, resp := range resps` of `IsHeaderConsistent`: how it ended and
the final `lastRespLength`. -/
def IsHeaderConsistent.resps {V : Type} (leafNodes : List Importer) :
    List (List (Field V)) → Nat → CheckLoop × Nat
  | [], lastRespLength => (.completed, lastRespLength)
  | resp :: rest, lastRespLength =>
    match IsHeaderConsistent.fields leafNodes lastRespLength resp 0 with
    | .completed => IsHeaderConsistent.resps leafNodes rest (lastRespLength + resp.length)
    | other => (other, lastRespLength)

/-- The method `Importer.IsHeaderConsistent`: `(isConsistent, err)`. -/
def IsHeaderConsistent {V : Type} (root : Importer) (resps : List (List (Field V))) :
    Bool × Option String :=
  let leafNodes := leafIndex root
  match IsHeaderConsistent.resps leafNodes resps 0 with
  | (.panicked p, _) => (false, some ("IsHeaderConsistent: internal error: " ++ p))
  | (.returned, _) => (false, none)
  | (.completed, lastRespLength) =>
    if lastRespLength ≠ leafNodes.length then (false, none) else (true, none)

/-! ## Importers of an opened document -/

/-- The fields of the struct `Excel` that `initImporters` reads and writes. -/
structure Excel where
  activeSheetNames : List String
  asyncScanWorkerNums : Int
  humanErrorMsg : Bool
  importers : List Importer

/-- The option `AsyncScanWorkerNums(workerNums)`. -/
def AsyncScanWorkerNums (workerNums : Int) (e : Excel) : Excel :=
  { e with asyncScanWorkerNums := workerNums }

/-- The loop over `e.activeSheetNames` inside the closure of `initImporters`, with
the importers appended so far: the importers and the outer `err` at the end, or
`none` when `buildImporterTree` runs out of fuel. The results of
`e.getSheetLastColIndex` and `e.getHeaders` are parameters. The `err` assigned from
`e.getHeaders` and from `buildImporterTree` is the one declared by `:=` in the loop
body, so these two failures leave the outer `err` nil. The local
`asyncScanWorkerNums` receives the default when the configured value is 0, and the
root is then assigned `e.asyncScanWorkerNums`, as in the source. -/
def initImporters.loop (conv : CellNameToCoordinates) (fuel : Nat)
    (getSheetLastColIndex : String → Except GoError Int)
    (getHeaders : String → Except GoError (List MergeCell)) (e : Excel) :
    List String → List Importer → Option (List Importer × Option GoError)
  | [], importers => some (importers, none)
  | sheetName :: rest, importers =>
    let root := { Importer.new with value := sheetName, colIndexStart := _colIndexStart }
    match getSheetLastColIndex sheetName with
    | .error err => some (importers, some err)
    | .ok colIndexEnd =>
      let root := { root with colIndexEnd := colIndexEnd }
      match getHeaders sheetName with
      | .error _ => some (importers, none)
      | .ok mergeCells =>
        let asyncScanWorkerNums := e.asyncScanWorkerNums
        let asyncScanWorkerNums :=
          if asyncScanWorkerNums = 0 then _defaultAsyncScanExRowsGoroutineNums
          else asyncScanWorkerNums
        let root := { root with
                      asyncScanWorkerNums := e.asyncScanWorkerNums
                      withHumanErrorMsg := e.humanErrorMsg }
        match buildImporterTree conv fuel root mergeCells with
        | none => none
        | some (.error _) => some (importers, none)
        | some (.ok children) =>
          initImporters.loop conv fuel getSheetLastColIndex getHeaders e rest
            (importers ++ [{ root with childImporters := children }])

/-- The method `initImporters` on its first call: the document with its importers
and the returned error. -/
def initImporters (conv : CellNameToCoordinates) (fuel : Nat)
    (getSheetLastColIndex : String → Except GoError Int)
    (getHeaders : String → Except GoError (List MergeCell)) (e : Excel) :
    Option (Excel × Option GoError) :=
  match initImporters.loop conv fuel getSheetLastColIndex getHeaders e e.activeSheetNames
      e.importers with
  | none => none
  | some (importers, err) => some ({ e with importers := importers }, err)

/-! ## Data row start -/

mutual
/-- The method `getRowsBeginIndex` on a non-nil node: the loop
`for len(im.childImporters) != 0 then im = im.childImporters[0]` followed by
`return im.rowIndexEnd`. -/
def getRowsBeginIndex : Importer → Int
  | ⟨_, _, _, _, rowIndexEnd, _, childImporters, _, _, _⟩ =>
    getRowsBeginIndex.first rowIndexEnd childImporters
/-- One turn of the loop of `getRowsBeginIndex`, for the children of the current
node `im` and its `rowIndexEnd`. -/
def getRowsBeginIndex.first : Int → List Importer → Int
  | rowIndexEnd, [] => rowIndexEnd
  | _, im :: _ => getRowsBeginIndex im
end

/-- The loop `for i := range rows` of `GetSheetRowsWithoutHeader`, from index `i` on.
A nil row is `none`. -/
def GetSheetRowsWithoutHeader.loop (rowBeginIndex : Int) :
    List (Option (List String)) → Nat → List (List String)
  | [], _ => []
  | none :: rest, i => GetSheetRowsWithoutHeader.loop rowBeginIndex rest (i + 1)
  | some row :: rest, i =>
    if (i : Int) < rowBeginIndex then GetSheetRowsWithoutHeader.loop rowBeginIndex rest (i + 1)
    else row :: GetSheetRowsWithoutHeader.loop rowBeginIndex rest (i + 1)

/-- The method `GetSheetRowsWithoutHeader`, for `importer` the importer
`e.importers[_defaultSheetIndex]` and `rows` the result of `e.file.GetRows(sheet)`. -/
def GetSheetRowsWithoutHeader (importer : Importer)
    (rows : Except GoError (List (Option (List String)))) :
    Except GoError (List (List String)) :=
  let rowBeginIndex := getRowsBeginIndex importer
  match rows with
  | .error err => .error err
  | .ok rows => .ok (GetSheetRowsWithoutHeader.loop rowBeginIndex rows 0)

/-! ## Sub-tree lookup -/

mutual
/-- The method `subImporter`; `none` is the nil result. The test `root.path == nil`
is the test that the path is empty. -/
def subImporter : Importer → List String → Option Importer
  | ⟨value, cs, ce, rs, re, rootPath, childImporters, leafNodes, workers, human⟩, path =>
    match path with
    | [] => none
    | [label] =>
      if label = value then
        some ⟨value, cs, ce, rs, re, rootPath, childImporters, leafNodes, workers, human⟩
      else none
    | label :: next :: more =>
      if rootPath = [] ∨ value = label then
        subImporter.children childImporters
          (if rootPath ≠ [] then next :: more else label :: next :: more)
      else none
/-- The loop `for _, node := range root.childImporters` of `subImporter`. -/
def subImporter.children : List Importer → List String → Option Importer
  | [], _ => none
  | node :: rest, path =>
    match subImporter node path with
    | some importer => some importer
    | none => subImporter.children rest path
end

/-- The method `SubImporter`. -/
def SubImporter (root : Importer) (path : String) : Option Importer :=
  let paths := stringsSplit path '|'
  if root.path.length > 0 then subImporter root (root.value :: paths)
  else subImporter root paths

/-! ## Cell names -/

/-- Modelled from the spec: the cell-name to coordinate conversion of the
spreadsheet access library (section 6), for names made of column letters followed
by a row number, within the sheet limits of 16384 columns and 1048576 rows. -/
def cellNameToCoordinates : CellNameToCoordinates := fun cell =>
  let letters := cell.toList.takeWhile Char.isAlpha
  let digits := cell.toList.dropWhile Char.isAlpha
  if letters = [] ∨ digits = [] ∨ digits.all Char.isDigit = false then
    .error ("cannot convert cell " ++ cell ++ " to coordinates")
  else
    let col : Nat := letters.foldl (fun acc c => acc * 26 + (c.toUpper.toNat - 64)) 0
    let row : Nat := digits.foldl (fun acc c => acc * 10 + (c.toNat - 48)) 0
    if row = 0 ∨ row > 1048576 ∨ col > 16384 then
      .error ("cannot convert cell " ++ cell ++ " to coordinates")
    else .ok ((col : Int), (row : Int))

/-! ## Views of a tree used in the statements -/

mutual
/-- A node followed by all the nodes below it, depth first. -/
def subtrees : Importer → List Importer
  | ⟨value, cs, ce, rs, re, path, childImporters, leafNodes, workers, human⟩ =>
    ⟨value, cs, ce, rs, re, path, childImporters, leafNodes, workers, human⟩
      :: subtrees.children childImporters
/-- The nodes of a list of trees. -/
def subtrees.children : List Importer → List Importer
  | [] => []
  | im :: rest => subtrees im ++ subtrees.children rest
end

mutual
/-- The nodes of a tree, each with its depth and its trail: the labels met on the way
down from the tree to the node. The tree itself has the depth `d` and the trail
`trail`; a child is one level deeper and adds its own label to the trail. -/
def nodesWithTrail : Nat → List String → Importer → List (Nat × List String × Importer)
  | d, trail, ⟨value, cs, ce, rs, re, path, childImporters, leafNodes, workers, human⟩ =>
    (d, trail, ⟨value, cs, ce, rs, re, path, childImporters, leafNodes, workers, human⟩)
      :: nodesWithTrail.children d trail childImporters
/-- The nodes of a list of children of a node with the depth `d` and the trail
`trail`. -/
def nodesWithTrail.children :
    Nat → List String → List Importer → List (Nat × List String × Importer)
  | _, _, [] => []
  | d, trail, im :: rest =>
    nodesWithTrail (d + 1) (trail ++ [im.value]) im ++ nodesWithTrail.children d trail rest
end

mutual
/-- The leaves of `getLeafNodes`, in the same order, each with its depth and its
trail. -/
def leavesWithTrail : Nat → List String → Importer → List (Nat × List String × Importer)
  | d, trail, ⟨value, cs, ce, rs, re, path, childImporters, leafNodes, workers, human⟩ =>
    match childImporters with
    | [] => [(d, trail, ⟨value, cs, ce, rs, re, path, [], leafNodes, workers, human⟩)]
    | im :: rest => leavesWithTrail.children d trail (im :: rest)
/-- The leaves of a list of children of a node with the depth `d` and the trail
`trail`. -/
def leavesWithTrail.children :
    Nat → List String → List Importer → List (Nat × List String × Importer)
  | _, _, [] => []
  | d, trail, im :: rest =>
    leavesWithTrail (d + 1) (trail ++ [im.value]) im ++ leavesWithTrail.children d trail rest
end

/-- The span `cell` passes the guard of `childrenColBoundaryIndex` for `root` and
ends at the last column of `root`: it sets the end index. -/
def Closes (conv : CellNameToCoordinates) (root : Importer) (cell : MergeCell) : Prop :=
  ∃ colIndexStart rowIndex colIndexEnd rowIndexEnd,
    conv cell.startAxis = .ok (colIndexStart, rowIndex)
    ∧ conv cell.endAxis = .ok (colIndexEnd, rowIndexEnd)
    ∧ rowIndex > root.rowIndexEnd ∧ colIndexStart ≥ root.colIndexStart
    ∧ colIndexEnd = root.colIndexEnd

/-- The span `cell` passes the guard of `childrenColBoundaryIndex` for `root` and
starts at the first column of `root`: it sets the start index. -/
def Opens (conv : CellNameToCoordinates) (root : Importer) (cell : MergeCell) : Prop :=
  ∃ colIndexStart rowIndex colIndexEnd rowIndexEnd,
    conv cell.startAxis = .ok (colIndexStart, rowIndex)
    ∧ conv cell.endAxis = .ok (colIndexEnd, rowIndexEnd)
    ∧ rowIndex > root.rowIndexEnd ∧ colIndexStart = root.colIndexStart
    ∧ colIndexEnd ≤ root.colIndexEnd

/-- The node `child` is the child that `buildImporterTree` makes from the span
`cell` under `root`, with the children `buildImporterTree` returns for it with the
recursion bound `fuel`. -/
def BuiltFrom (conv : CellNameToCoordinates) (fuel : Nat) (mergeCells : List MergeCell)
    (root : Importer) (cell : MergeCell) (child : Importer) : Prop :=
  ∃ node children, buildNodeByCell conv cell = .ok node
    ∧ buildImporterTree conv fuel
        { node with
          asyncScanWorkerNums := root.asyncScanWorkerNums
          withHumanErrorMsg := root.withHumanErrorMsg
          path := (node.path ++ root.path) ++ [cell.cellValue] } mergeCells
      = some (.ok children)
    ∧ child = { node with
                asyncScanWorkerNums := root.asyncScanWorkerNums
                withHumanErrorMsg := root.withHumanErrorMsg
                path := (node.path ++ root.path) ++ [cell.cellValue]
                childImporters := children }

/-- The value `m` is the largest `rowEnd` among the leaves of the tree `root`. -/
def IsLargestLeafRowEnd (root : Importer) (m : Int) : Prop :=
  (∃ l ∈ getLeafNodes root, l.rowIndexEnd = m) ∧ ∀ l ∈ getLeafNodes root, l.rowIndexEnd ≤ m

/-- The binding paths of all fields of the records, record order then field order. -/
def fieldPaths {V : Type} (resps : List (List (Field V))) : List (List String) :=
  (resps.map (fun resp => resp.map (fun field => stringsSplit field.tag '|'))).flatten


/-- The binding path `path` is bound to the leaf `leafNode` at index `j` of the
leaf index: it is the first leaf, in leaf order, whose path equals `path`. -/
def BoundTo (leafNodes : List Importer) (path : List String) (j : Nat)
    (leafNode : Importer) : Prop :=
  leafNodes[j]? = some leafNode ∧ leafNode.path = path
    ∧ ∀ i other, i < j → leafNodes[i]? = some other → other.path ≠ path

/-- The translator fails on `field`: the field is bound to `leafNode` and
`Translate`, called with the cell of that leaf and the column of the leaf, returns
the error `err`. -/
def FailsAt {V E : Type} (translate : Translate V E) (leafNodes : List Importer)
    (row : List String) (field : Field V) (leafNode : Importer) (err : E) : Prop :=
  ∃ j cell, BoundTo leafNodes (stringsSplit field.tag '|') j leafNode ∧ row[j]? = some cell
    ∧ translate field.value cell leafNode.colIndexStart = .error err

/-- The field `field1` is `field` after a successful visit: it keeps its tag, and
either no leaf has its binding path and the value is unchanged, or the field is
bound to a leaf and the value is the result of `Translate` on the cell of that leaf. -/
def TranslatedTo {V E : Type} (translate : Translate V E) (leafNodes : List Importer)
    (row : List String) (field field1 : Field V) : Prop :=
  field1.tag = field.tag
    ∧ (((∀ leafNode ∈ leafNodes, leafNode.path ≠ stringsSplit field.tag '|')
          ∧ field1.value = field.value)
      ∨ ∃ j leafNode cell, BoundTo leafNodes (stringsSplit field.tag '|') j leafNode
          ∧ row[j]? = some cell
          ∧ translate field.value cell leafNode.colIndexStart = .ok field1.value)

/-- The binding path `path` is bound to the leaf `leafNode` at index `j` of the
leaf index in relative mode: the leaf path ends in `path`, and every earlier leaf
has a path at least as long as `path` that does not end in `path`. -/
def SuffixBoundTo (leafNodes : List Importer) (path : List String) (j : Nat)
    (leafNode : Importer) : Prop :=
  leafNodes[j]? = some leafNode ∧ (∃ front, leafNode.path = front ++ path)
    ∧ ∀ i other, i < j → leafNodes[i]? = some other →
        path.length ≤ other.path.length ∧ ¬ ∃ front, other.path = front ++ path

/-- The matching condition of relative mode in the words of the specification:
the binding path is the trailing part of the leaf path. It never panics. -/
def suffixMatch (leafPath path : List String) : Except String Bool :=
  .ok (decide (path <:+ leafPath))

/-- What a scan of the one record with the one field `field` returns when the
field is bound to `leafNode` and `Translate` is called with `cell` and the column of
that leaf: on success the record with the translated value, column 0 and no error;
on failure the record unchanged, the column of the leaf and the error. -/
def singleFieldScan {V E : Type} (translate : Translate V E) (withHumanErrorMsg : Bool)
    (field : Field V) (leafNode : Importer) (cell : String) : ScanResult V E :=
  match translate field.value cell leafNode.colIndexStart with
  | .ok setValue =>
    { resps := [[{ field with value := setValue }]], scanErrColIndex := 0, err := none }
  | .error err =>
    { resps := [[field]], scanErrColIndex := leafNode.colIndexStart,
      err := some (if withHumanErrorMsg then .human (humanErrorMsg leafNode)
                   else .translate err) }

/-! ## Example inputs -/

/-- The span list `A1:B1 X, A2:A2 Y, B2:B2 Z`. -/
def exampleSpans : List MergeCell :=
  [⟨"A1", "B1", "X"⟩, ⟨"A2", "A2", "Y"⟩, ⟨"B2", "B2", "Z"⟩]

/-- A sheet root as `initImporters` makes it, covering the columns 1 to 2. -/
def exampleStub : Importer :=
  { Importer.new with value := "Sheet1", colIndexStart := 1, colIndexEnd := 2 }

/-- The leaf `Y` of the example tree, in column 1. -/
def exampleLeafY : Importer :=
  { Importer.new with
    value := "Y", colIndexStart := 1, colIndexEnd := 1, rowIndexStart := 2,
    rowIndexEnd := 2, path := ["X", "Y"] }

/-- The leaf `Z` of the example tree, in column 2. -/
def exampleLeafZ : Importer :=
  { Importer.new with
    value := "Z", colIndexStart := 2, colIndexEnd := 2, rowIndexStart := 2,
    rowIndexEnd := 2, path := ["X", "Z"] }

/-- The node `X` of the example tree, over the columns 1 to 2. -/
def exampleNodeX : Importer :=
  { Importer.new with
    value := "X", colIndexStart := 1, colIndexEnd := 2, rowIndexStart := 1,
    rowIndexEnd := 1, path := ["X"]
    childImporters := [exampleLeafY, exampleLeafZ] }

/-- The header tree of `exampleSpans` under `exampleStub`. -/
def exampleRoot : Importer :=
  { exampleStub with childImporters := [exampleNodeX] }

/-- The leaf `L1` in column 1. -/
def leafL1 : Importer :=
  { Importer.new with
    value := "L1", colIndexStart := 1, colIndexEnd := 1, rowIndexStart := 1,
    rowIndexEnd := 1, path := ["L1"] }

/-- The leaf `L2` in column 2. -/
def leafL2 : Importer :=
  { Importer.new with
    value := "L2", colIndexStart := 2, colIndexEnd := 2, rowIndexStart := 1,
    rowIndexEnd := 1, path := ["L2"] }

/-- The leaf `L3` in column 3. -/
def leafL3 : Importer :=
  { Importer.new with
    value := "L3", colIndexStart := 3, colIndexEnd := 3, rowIndexStart := 1,
    rowIndexEnd := 1, path := ["L3"] }

/-- A sheet root with the three leaves `L1`, `L2`, `L3` in the columns 1 to 3. -/
def threeLeafRoot : Importer :=
  { Importer.new with
    value := "Sheet1", colIndexStart := 1, colIndexEnd := 3
    childImporters := [leafL1, leafL2, leafL3] }

/-- The leaf with the path `Sales, Region, Total`, in column 1. -/
def salesLeaf : Importer :=
  { Importer.new with
    value := "Total", colIndexStart := 1, colIndexEnd := 1, rowIndexStart := 3,
    rowIndexEnd := 3, path := ["Sales", "Region", "Total"] }

/-- A sheet root with the one column `Sales`, `Region`, `Total`. -/
def salesRoot : Importer :=
  { Importer.new with
    value := "Sheet1", colIndexStart := 1, colIndexEnd := 1
    childImporters :=
      [{ Importer.new with
         value := "Sales", colIndexStart := 1, colIndexEnd := 1, rowIndexStart := 1,
         rowIndexEnd := 1, path := ["Sales"]
         childImporters :=
           [{ Importer.new with
              value := "Region", colIndexStart := 1, colIndexEnd := 1, rowIndexStart := 2,
              rowIndexEnd := 2, path := ["Sales", "Region"]
              childImporters := [salesLeaf] }] }] }

/-- A sheet root covering the columns 1 to 4. -/
def wideStub : Importer :=
  { Importer.new with value := "Sheet1", colIndexStart := 1, colIndexEnd := 4 }

/-- The span list `A1:A1 W, B1:C1 P, B2:B2 a, D1:D1 X, C2:C2 c`, all within the columns
1 to 4: under `P` the span `a` sets the start index and `c` the end index, and the
top-level header `X` lies between them in the list. -/
def middleSpans : List MergeCell :=
  [⟨"A1", "A1", "W"⟩, ⟨"B1", "C1", "P"⟩, ⟨"B2", "B2", "a"⟩, ⟨"D1", "D1", "X"⟩,
   ⟨"C2", "C2", "c"⟩]

/-- The span list `C1:C1 S, B2:B2 Z, A1:B1 P, D1:D1 W`: under `P` the span `Z` sets the
end index and no span sets the start index. -/
def defaultStartSpans : List MergeCell :=
  [⟨"C1", "C1", "S"⟩, ⟨"B2", "B2", "Z"⟩, ⟨"A1", "B1", "P"⟩, ⟨"D1", "D1", "W"⟩]

/-- Two records: the first with the fields `X|Y`, `X|Z`, `X|Y`, the second with the
field `X|Y`. -/
def exampleResps : List (List (Field String)) :=
  [[⟨"X|Y", ""⟩, ⟨"X|Z", ""⟩, ⟨"X|Y", "kept"⟩], [⟨"X|Y", "later"⟩]]

/-- A translator that rejects the cell text `oops` and otherwise takes the cell
text as the value. -/
def exampleTranslate : Translate String String := fun _ cell _ =>
  if cell = "oops" then .error "bad cell" else .ok cell

/-- A document opened without the `AsyncScanWorkerNums` option. -/
def exampleExcel : Excel :=
  { activeSheetNames := ["Sheet1"], asyncScanWorkerNums := 0, humanErrorMsg := false,
    importers := [] }

/-- A sheet root covering the columns 1 to 3. -/
def threeColumnStub : Importer :=
  { Importer.new with value := "Sheet1", colIndexStart := 1, colIndexEnd := 3 }

/-- The span list `A1:A1 a, B1:C1 P, B2:B2 p1, C2:C2 p2`: the first column has one
header row, the other two columns have two. -/
def unevenSpans : List MergeCell :=
  [⟨"A1", "A1", "a"⟩, ⟨"B1", "C1", "P"⟩, ⟨"B2", "B2", "p1"⟩, ⟨"C2", "C2", "p2"⟩]

/-- The span list `A1:B1 X, B2:B2 Z`: under `X` the span `Z` sets the end index and no
span sets the start index. -/
def selfChildSpans : List MergeCell :=
  [⟨"A1", "B1", "X"⟩, ⟨"B2", "B2", "Z"⟩]

/-! # Properties -/

/-! ## Row resize (C1) -/

theorem appendEmpty_eq (n : Nat) (row : List String) :
    appendEmpty n row = row ++ List.replicate n "" := by
  induction n generalizing row with
  | zero => simp [appendEmpty]
  | succ n ih =>
    rw [appendEmpty, ih, List.replicate_succ, List.append_assoc]
    rfl

theorem resizeRow_eq (leafNodesLength : Nat) (row : List String) :
    resizeRow leafNodesLength row =
      if leafNodesLength < row.length then row.drop (row.length - leafNodesLength)
      else if row.length < leafNodesLength then
        row ++ List.replicate (leafNodesLength - row.length) ""
      else row := by
  simp only [resizeRow, appendEmpty_eq]
  by_cases h1 : leafNodesLength < row.length
  · have h2 : ¬ row.length < leafNodesLength := by omega
    simp only [h1, h2, if_true, if_false]
  · simp only [h1, if_false]

theorem resizeRow_length (leafNodesLength : Nat) (row : List String) :
    (resizeRow leafNodesLength row).length = leafNodesLength := by
  rw [resizeRow_eq]
  split_ifs with h1 h2
  · rw [List.length_drop]; omega
  · rw [List.length_append, List.length_replicate]; omega
  · omega

theorem resizeRow_idem (leafNodesLength : Nat) (row : List String) :
    resizeRow leafNodesLength (resizeRow leafNodesLength row) = resizeRow leafNodesLength row := by
  have hlen := resizeRow_length leafNodesLength row
  rw [resizeRow_eq leafNodesLength (resizeRow leafNodesLength row), if_neg (by omega),
    if_neg (by omega)]

/-! ## The scan of one field -/

theorem scanLeaves_split {V E : Type} (cond : List String → List String → Except String Bool)
    (translate : Translate V E) (withHumanErrorMsg : Bool) (row path : List String) (v : V)
    (before : List Importer) (leafNode : Importer) (after : List Importer) (k : Nat)
    (cell : String) (hbefore : ∀ x ∈ before, cond x.path path = .ok false)
    (hleaf : cond leafNode.path path = .ok true)
    (hcell : row[k + before.length]? = some cell) :
    scanLeaves cond translate withHumanErrorMsg row path v (before ++ leafNode :: after) k
      = match translate v cell leafNode.colIndexStart with
        | .ok setValue => .set setValue
        | .error err =>
          if withHumanErrorMsg then
            .aborted (.failed leafNode.colIndexStart (.human (humanErrorMsg leafNode)))
          else .aborted (.failed leafNode.colIndexStart (.translate err)) := by
  induction before generalizing k with
  | nil =>
    rw [List.nil_append, scanLeaves]
    simp only [List.length_nil, Nat.add_zero] at hcell
    simp only [hleaf, hcell]
    cases translate v cell leafNode.colIndexStart <;> rfl
  | cons x rest ih =>
    rw [List.cons_append, scanLeaves]
    simp only [hbefore x (List.mem_cons_self _ _)]
    refine ih (k + 1) (fun y hy => hbefore y (List.mem_cons_of_mem _ hy)) ?_
    rw [← hcell]
    congr 1
    simp only [List.length_cons]
    omega

theorem scanLeaves_unmatched {V E : Type}
    (cond : List String → List String → Except String Bool) (translate : Translate V E)
    (withHumanErrorMsg : Bool) (row path : List String) (v : V) (leafNodes : List Importer)
    (k : Nat) (h : ∀ x ∈ leafNodes, cond x.path path = .ok false) :
    scanLeaves cond translate withHumanErrorMsg row path v leafNodes k = .unmatched := by
  induction leafNodes generalizing k with
  | nil => rw [scanLeaves]
  | cons x rest ih =>
    rw [scanLeaves]
    simp only [h x (List.mem_cons_self _ _)]
    exact ih (k + 1) (fun y hy => h y (List.mem_cons_of_mem _ hy))

theorem mem_take_getElem? {α : Type} {l : List α} {j : Nat} {x : α} (h : x ∈ l.take j) :
    ∃ i, i < j ∧ l[i]? = some x := by
  obtain ⟨i, hi⟩ := List.mem_iff_getElem?.mp h
  by_cases hlt : i < j
  · exact ⟨i, hlt, by rw [← hi, List.getElem?_take_of_lt hlt]⟩
  · rw [List.getElem?_take_eq_none (by omega)] at hi
    cases hi

theorem split_at_getElem? {α : Type} {l : List α} {j : Nat} {x : α} (h : l[j]? = some x) :
    l = l.take j ++ x :: l.drop (j + 1) ∧ (l.take j).length = j := by
  obtain ⟨hlt, hx⟩ := List.getElem?_eq_some.mp h
  constructor
  · conv_lhs => rw [← List.take_append_drop j l, List.drop_eq_getElem_cons hlt, hx]
  · rw [List.length_take]
    omega

theorem scanExRowWith_single_bound {V E : Type}
    (cond : List String → List String → Except String Bool) (translate : Translate V E)
    (root : Importer) (row : List String) (field : Field V) (j : Nat) (leafNode : Importer)
    (cell : String) (hj : (leafIndex root)[j]? = some leafNode)
    (hbefore : ∀ i other, i < j → (leafIndex root)[i]? = some other →
      cond other.path (stringsSplit field.tag '|') = .ok false)
    (hleaf : cond leafNode.path (stringsSplit field.tag '|') = .ok true)
    (hcell : (resizeRow (leafIndex root).length row)[j]? = some cell) :
    scanExRowWith cond translate root row [[field]]
      = singleFieldScan translate root.withHumanErrorMsg field leafNode cell := by
  obtain ⟨hsplit, hlen⟩ := split_at_getElem? hj
  have hscan := scanLeaves_split cond translate root.withHumanErrorMsg
    (resizeRow (leafIndex root).length row) (stringsSplit field.tag '|') field.value
    ((leafIndex root).take j) leafNode ((leafIndex root).drop (j + 1)) 0 cell
    (fun x hx => by
      obtain ⟨i, hi, hget⟩ := mem_take_getElem? hx
      exact hbefore i x hi hget)
    hleaf (by rw [hlen, Nat.zero_add]; exact hcell)
  rw [← hsplit] at hscan
  unfold scanExRowWith singleFieldScan
  simp only [scanResps, scanFields, hscan]
  cases translate field.value cell leafNode.colIndexStart with
  | ok setValue => rfl
  | error err =>
    cases root.withHumanErrorMsg <;> rfl

theorem scanExRowWith_single_unmatched {V E : Type}
    (cond : List String → List String → Except String Bool) (translate : Translate V E)
    (root : Importer) (row : List String) (field : Field V)
    (h : ∀ l ∈ leafIndex root, cond l.path (stringsSplit field.tag '|') = .ok false) :
    scanExRowWith cond translate root row [[field]]
      = { resps := [[field]], scanErrColIndex := 0, err := none } := by
  have hscan := scanLeaves_unmatched cond translate root.withHumanErrorMsg
    (resizeRow (leafIndex root).length row) (stringsSplit field.tag '|') field.value
    (leafIndex root) 0 h
  unfold scanExRowWith
  simp only [scanResps, scanFields, hscan]

theorem resizeRow_getElem? (leafNodesLength : Nat) (row : List String) (j : Nat) :
    (resizeRow leafNodesLength row)[j]?
      = if leafNodesLength < row.length then row[row.length - leafNodesLength + j]?
        else if j < row.length then row[j]?
        else if j < leafNodesLength then some "" else none := by
  rw [resizeRow_eq]
  by_cases h1 : leafNodesLength < row.length
  · rw [if_pos h1, if_pos h1, List.getElem?_drop]
  · rw [if_neg h1, if_neg h1]
    by_cases h2 : row.length < leafNodesLength
    · rw [if_pos h2]
      by_cases h3 : j < row.length
      · rw [if_pos h3, List.getElem?_append_left h3]
      · rw [if_neg h3, List.getElem?_append_right (by omega), List.getElem?_replicate]
        by_cases h4 : j < leafNodesLength
        · rw [if_pos h4, if_pos (by omega)]
        · rw [if_neg h4, if_neg (by omega)]
    · rw [if_neg h2]
      by_cases h3 : j < row.length
      · rw [if_pos h3]
      · rw [if_neg h3, if_neg (by omega), List.getElem?_eq_none (by omega)]

theorem deepEqual_iff (a b : List String) : deepEqual a b = true ↔ a = b := by
  simp [deepEqual]

theorem exactMatch_of_eq {leafPath path : List String} (h : leafPath = path) :
    exactMatch leafPath path = .ok true := by
  unfold exactMatch
  rw [(deepEqual_iff _ _).mpr h]

theorem exactMatch_of_ne {leafPath path : List String} (h : leafPath ≠ path) :
    exactMatch leafPath path = .ok false := by
  unfold exactMatch
  cases hb : deepEqual leafPath path
  · rfl
  · exact absurd ((deepEqual_iff _ _).mp hb) h

/-- C1. In `ScanExRow` the row read by the leaves, `resizeRow L row` for `L` the
number of leaves of the index and `R` the number of cells, has length exactly `L`;
when `R > L` it is the last `L` cells of the input, the first `R - L` being the ones
dropped; when `R < L` it is the input followed by `L - R` empty strings; when
`R = L` it is the input. Every leaf index `j < L` has a cell in it, cell `j` of the
resized row being cell `R - L + j` of the input when `R > L`, cell `j` of the input
when `j < R <= L`, and the empty string otherwise. The leaf at index `j` reads
cell `j` of the resized row: the scan of a record with one field bound to that
leaf calls `Translate` with this cell and the column of the leaf, sets the field
on success and returns the column and the error on failure. The scan of the input
row is the scan of the resized row. -/
theorem scanExRow_row_resize {V E : Type} (translate : Translate V E) (root : Importer)
    (row : List String) (resps : List (List (Field V))) :
    (resizeRow (leafIndex root).length row).length = (leafIndex root).length
    ∧ ((leafIndex root).length < row.length →
        resizeRow (leafIndex root).length row = row.drop (row.length - (leafIndex root).length)
        ∧ row = row.take (row.length - (leafIndex root).length)
            ++ resizeRow (leafIndex root).length row)
    ∧ (row.length < (leafIndex root).length →
        resizeRow (leafIndex root).length row
          = row ++ List.replicate ((leafIndex root).length - row.length) "")
    ∧ (row.length = (leafIndex root).length → resizeRow (leafIndex root).length row = row)
    ∧ (∀ j, j < (leafIndex root).length →
        ∃ cell, (resizeRow (leafIndex root).length row)[j]? = some cell)
    ∧ (∀ j, (resizeRow (leafIndex root).length row)[j]?
        = if (leafIndex root).length < row.length then
            row[row.length - (leafIndex root).length + j]?
          else if j < row.length then row[j]?
          else if j < (leafIndex root).length then some "" else none)
    ∧ (∀ (field : Field V) (j : Nat) (leafNode : Importer) (cell : String),
        BoundTo (leafIndex root) (stringsSplit field.tag '|') j leafNode →
        (resizeRow (leafIndex root).length row)[j]? = some cell →
        ScanExRow translate root row [[field]]
          = singleFieldScan translate root.withHumanErrorMsg field leafNode cell)
    ∧ ScanExRow translate root row resps
        = ScanExRow translate root (resizeRow (leafIndex root).length row) resps := by
  refine ⟨resizeRow_length _ _, ?_, ?_, ?_, ?_, resizeRow_getElem? _ _, ?_, ?_⟩
  · intro h
    have hr : resizeRow (leafIndex root).length row
        = row.drop (row.length - (leafIndex root).length) := by
      rw [resizeRow_eq, if_pos h]
    exact ⟨hr, by rw [hr, List.take_append_drop]⟩
  · intro h
    rw [resizeRow_eq, if_neg (by omega), if_pos h]
  · intro h
    rw [resizeRow_eq, if_neg (by omega), if_neg (by omega)]
  · intro j hj
    have hlen := resizeRow_length (leafIndex root).length row
    have hj2 : j < (resizeRow (leafIndex root).length row).length := by omega
    exact ⟨(resizeRow (leafIndex root).length row)[j], List.getElem?_eq_getElem hj2⟩
  · intro field j leafNode cell hbound hcell
    obtain ⟨hget, hpath, hmin⟩ := hbound
    exact scanExRowWith_single_bound exactMatch translate root row field j leafNode cell hget
      (fun i other hi hother => exactMatch_of_ne (hmin i other hi hother))
      (exactMatch_of_eq hpath) hcell
  · simp only [ScanExRow, scanExRowWith, resizeRow_idem]

/-- C1, witness: the row `a b c d e` against a tree of three leaves is read as
`c d e`, the cells `a b` being dropped; a field bound to the first leaf is set to
`c` and a field bound to the third leaf is set to `e`. -/
theorem scanExRow_row_resize_witness :
    resizeRow 3 ["a", "b", "c", "d", "e"] = ["c", "d", "e"]
    ∧ ["a", "b", "c", "d", "e"] = ["a", "b"] ++ resizeRow 3 ["a", "b", "c", "d", "e"]
    ∧ ScanExRow exampleTranslate threeLeafRoot ["a", "b", "c", "d", "e"] [[⟨"L1", ""⟩]]
        = { resps := [[⟨"L1", "c"⟩]], scanErrColIndex := 0, err := none }
    ∧ ScanExRow exampleTranslate threeLeafRoot ["a", "b", "c", "d", "e"] [[⟨"L3", ""⟩]]
        = { resps := [[⟨"L3", "e"⟩]], scanErrColIndex := 0, err := none } :=
  have h := scanExRow_row_resize exampleTranslate threeLeafRoot ["a", "b", "c", "d", "e"] []
  ⟨(h.2.1 (by decide)).1, (h.2.1 (by decide)).2,
   h.2.2.2.2.2.2.1 ⟨"L1", ""⟩ 0 leafL1 "c"
     ⟨rfl, by decide, fun i _ hi _ => absurd hi (Nat.not_lt_zero i)⟩ rfl,
   h.2.2.2.2.2.2.1 ⟨"L3", ""⟩ 2 leafL3 "e"
     ⟨rfl, by decide, fun i other hi hget => by
        have hleaves : leafIndex threeLeafRoot = [leafL1, leafL2, leafL3] := rfl
        rw [hleaves] at hget
        have hi2 : i = 0 ∨ i = 1 := by omega
        rcases hi2 with hi0 | hi1
        · subst hi0
          have hother : other = leafL1 := (Option.some.inj hget).symm
          subst hother
          decide
        · subst hi1
          have hother : other = leafL2 := (Option.some.inj hget).symm
          subst hother
          decide⟩ rfl⟩

/-! ## Relative matching (C3) -/

theorem relativeMatch_of_le (leafPath path : List String)
    (h : path.length ≤ leafPath.length) :
    relativeMatch leafPath path
      = .ok (deepEqual (leafPath.drop (leafPath.length - path.length)) path) := by
  unfold relativeMatch
  rw [if_neg (by omega)]

theorem stringsSplit_ne_nil (s : String) (sep : Char) : stringsSplit s sep ≠ [] := by
  unfold stringsSplit
  simp [List.splitOn, List.splitOnP_ne_nil]

theorem relativeMatch_spec (leafPath path : List String)
    (h : path.length ≤ leafPath.length) :
    (relativeMatch leafPath path = .ok true ∨ relativeMatch leafPath path = .ok false)
    ∧ (relativeMatch leafPath path = .ok true ↔
        leafPath.drop (leafPath.length - path.length) = path)
    ∧ (relativeMatch leafPath path = .ok true ↔ ∃ front, leafPath = front ++ path) := by
  rw [relativeMatch_of_le leafPath path h]
  have hiff : (Except.ok (deepEqual (leafPath.drop (leafPath.length - path.length)) path)
      = (Except.ok true : Except String Bool)) ↔
      leafPath.drop (leafPath.length - path.length) = path := by
    rw [← deepEqual_iff]
    constructor
    · intro hx
      exact Except.ok.inj hx
    · intro hx
      rw [hx]
  refine ⟨?_, hiff, ?_⟩
  · cases deepEqual (leafPath.drop (leafPath.length - path.length)) path
    · exact Or.inr rfl
    · exact Or.inl rfl
  · rw [hiff]
    constructor
    · intro hx
      refine ⟨leafPath.take (leafPath.length - path.length), ?_⟩
      conv_lhs => rw [← List.take_append_drop (leafPath.length - path.length) leafPath]
      rw [hx]
    · rintro ⟨front, rfl⟩
      simp

theorem relativeMatch_of_suffix {leafPath path : List String}
    (h : ∃ front, leafPath = front ++ path) : relativeMatch leafPath path = .ok true := by
  have hlen : path.length ≤ leafPath.length := by
    obtain ⟨front, hfront⟩ := h
    rw [hfront, List.length_append]
    omega
  exact (relativeMatch_spec leafPath path hlen).2.2.mpr h

theorem relativeMatch_of_not_suffix {leafPath path : List String}
    (hlen : path.length ≤ leafPath.length) (h : ¬ ∃ front, leafPath = front ++ path) :
    relativeMatch leafPath path = .ok false := by
  obtain ⟨hcases, _, hiff⟩ := relativeMatch_spec leafPath path hlen
  rcases hcases with ht | hf
  · exact absurd (hiff.mp ht) h
  · exact hf

theorem relativeMatch_eq_suffixMatch (leafPath path : List String)
    (h : path.length ≤ leafPath.length) :
    relativeMatch leafPath path = suffixMatch leafPath path := by
  unfold suffixMatch
  by_cases hs : path <:+ leafPath
  · obtain ⟨front, hfront⟩ := hs
    rw [relativeMatch_of_suffix ⟨front, hfront.symm⟩, decide_eq_true ⟨front, hfront⟩]
  · rw [relativeMatch_of_not_suffix h (fun ⟨front, hfront⟩ => hs ⟨front, hfront.symm⟩),
      decide_eq_false hs]

theorem scanLeaves_congr {V E : Type}
    (cond cond1 : List String → List String → Except String Bool)
    (translate : Translate V E) (withHumanErrorMsg : Bool) (row : List String)
    (path : List String) (v : V) (leafNodes : List Importer) (j : Nat)
    (h : ∀ l ∈ leafNodes, cond l.path path = cond1 l.path path) :
    scanLeaves cond translate withHumanErrorMsg row path v leafNodes j
      = scanLeaves cond1 translate withHumanErrorMsg row path v leafNodes j := by
  induction leafNodes generalizing j with
  | nil => rfl
  | cons l rest ih =>
    have hrest := ih (j + 1) (fun x hx => h x (List.mem_cons_of_mem _ hx))
    unfold scanLeaves
    rw [h l (List.mem_cons_self _ _), hrest]

theorem scanFields_congr {V E : Type}
    (cond cond1 : List String → List String → Except String Bool)
    (translate : Translate V E) (withHumanErrorMsg : Bool) (leafNodes : List Importer)
    (row : List String) (fields : List (Field V))
    (h : ∀ field ∈ fields, ∀ l ∈ leafNodes,
      cond l.path (stringsSplit field.tag '|') = cond1 l.path (stringsSplit field.tag '|')) :
    scanFields cond translate withHumanErrorMsg leafNodes row fields
      = scanFields cond1 translate withHumanErrorMsg leafNodes row fields := by
  induction fields with
  | nil => rfl
  | cons field rest ih =>
    have hrest := ih (fun x hx => h x (List.mem_cons_of_mem _ hx))
    unfold scanFields
    rw [scanLeaves_congr cond cond1 translate withHumanErrorMsg row _ _ leafNodes 0
      (h field (List.mem_cons_self _ _)), hrest]

theorem scanResps_congr {V E : Type}
    (cond cond1 : List String → List String → Except String Bool)
    (translate : Translate V E) (withHumanErrorMsg : Bool) (leafNodes : List Importer)
    (row : List String) (resps : List (List (Field V)))
    (h : ∀ resp ∈ resps, ∀ field ∈ resp, ∀ l ∈ leafNodes,
      cond l.path (stringsSplit field.tag '|') = cond1 l.path (stringsSplit field.tag '|')) :
    scanResps cond translate withHumanErrorMsg leafNodes row resps
      = scanResps cond1 translate withHumanErrorMsg leafNodes row resps := by
  induction resps with
  | nil => rfl
  | cons resp rest ih =>
    have hrest := ih (fun x hx => h x (List.mem_cons_of_mem _ hx))
    unfold scanResps
    rw [scanFields_congr cond cond1 translate withHumanErrorMsg leafNodes row resp
      (h resp (List.mem_cons_self _ _)), hrest]

/-- C3. For the binding path of a field, `strings.Split(tag, "|")`, and a leaf path
that is not shorter, the condition of `RelativeScanExRow` evaluates without panic,
and it holds exactly when the last `len(path)` labels of the leaf path are the
binding path, in order: the leaf path is some front part followed by the binding
path. `RelativeScanExRow` uses it so: the scan of a record with one field binds the
field to the first leaf whose path ends in the binding path, the earlier leaves
having paths that are not shorter and do not end in it, and calls `Translate` with
the cell of that leaf; when every leaf path is not shorter and none ends in the
binding path, the field is left unchanged and the scan returns 0 and no error.
For records of any number of fields whose binding paths are no longer than the
leaf paths, `RelativeScanExRow` is the scan whose condition is `suffixMatch`. -/
theorem relativeMatch_iff_suffix {V E : Type} (translate : Translate V E) (root : Importer)
    (row : List String) (field : Field V) :
    (∀ leafPath : List String, (stringsSplit field.tag '|').length ≤ leafPath.length →
      (relativeMatch leafPath (stringsSplit field.tag '|') = .ok true
        ∨ relativeMatch leafPath (stringsSplit field.tag '|') = .ok false)
      ∧ (relativeMatch leafPath (stringsSplit field.tag '|') = .ok true ↔
          leafPath.drop (leafPath.length - (stringsSplit field.tag '|').length)
            = stringsSplit field.tag '|')
      ∧ (relativeMatch leafPath (stringsSplit field.tag '|') = .ok true ↔
          ∃ front, leafPath = front ++ stringsSplit field.tag '|'))
    ∧ (∀ (j : Nat) (leafNode : Importer) (cell : String),
        SuffixBoundTo (leafIndex root) (stringsSplit field.tag '|') j leafNode →
        (resizeRow (leafIndex root).length row)[j]? = some cell →
        RelativeScanExRow translate root row [[field]]
          = singleFieldScan translate root.withHumanErrorMsg field leafNode cell)
    ∧ ((∀ l ∈ leafIndex root, (stringsSplit field.tag '|').length ≤ l.path.length
          ∧ ¬ ∃ front, l.path = front ++ stringsSplit field.tag '|') →
        RelativeScanExRow translate root row [[field]]
          = { resps := [[field]], scanErrColIndex := 0, err := none })
    ∧ (∀ resps : List (List (Field V)),
        (∀ resp ∈ resps, ∀ f ∈ resp, ∀ l ∈ leafIndex root,
          (stringsSplit f.tag '|').length ≤ l.path.length) →
        RelativeScanExRow translate root row resps
          = scanExRowWith suffixMatch translate root row resps) := by
  refine ⟨fun leafPath h => relativeMatch_spec leafPath (stringsSplit field.tag '|') h, ?_, ?_,
    ?_⟩
  · intro j leafNode cell hbound hcell
    obtain ⟨hget, hsuffix, hmin⟩ := hbound
    exact scanExRowWith_single_bound relativeMatch translate root row field j leafNode cell
      hget
      (fun i other hi hother =>
        relativeMatch_of_not_suffix (hmin i other hi hother).1 (hmin i other hi hother).2)
      (relativeMatch_of_suffix hsuffix) hcell
  · intro hno
    exact scanExRowWith_single_unmatched relativeMatch translate root row field
      (fun l hl => relativeMatch_of_not_suffix (hno l hl).1 (hno l hl).2)
  · intro resps hlen
    have hscan := scanResps_congr relativeMatch suffixMatch translate root.withHumanErrorMsg
      (leafIndex root) (resizeRow (leafIndex root).length row) resps
      (fun resp hresp f hf l hl => relativeMatch_eq_suffixMatch _ _ (hlen resp hresp f hf l hl))
    simp only [RelativeScanExRow, scanExRowWith, hscan]

/-- C3, witness: the leaf path `Sales, Region, Total` matches the fields tagged
`Region|Total` and `Total`, and does not match the field tagged `Region`; on the
tree with that one leaf and the row `7`, `RelativeScanExRow` sets the first two
fields to `7` and leaves the third unchanged. -/
theorem relativeMatch_iff_suffix_witness :
    relativeMatch ["Sales", "Region", "Total"] (stringsSplit "Region|Total" '|') = .ok true
    ∧ relativeMatch ["Sales", "Region", "Total"] (stringsSplit "Total" '|') = .ok true
    ∧ ¬ relativeMatch ["Sales", "Region", "Total"] (stringsSplit "Region" '|') = .ok true
    ∧ RelativeScanExRow exampleTranslate salesRoot ["7"] [[⟨"Region|Total", ""⟩]]
        = { resps := [[⟨"Region|Total", "7"⟩]], scanErrColIndex := 0, err := none }
    ∧ RelativeScanExRow exampleTranslate salesRoot ["7"] [[⟨"Total", ""⟩]]
        = { resps := [[⟨"Total", "7"⟩]], scanErrColIndex := 0, err := none }
    ∧ RelativeScanExRow exampleTranslate salesRoot ["7"] [[⟨"Region", "zero"⟩]]
        = { resps := [[⟨"Region", "zero"⟩]], scanErrColIndex := 0, err := none } :=
  ⟨((relativeMatch_iff_suffix exampleTranslate salesRoot ["7"] ⟨"Region|Total", ""⟩).1
      ["Sales", "Region", "Total"] (by decide)).2.1.mpr (by decide),
   ((relativeMatch_iff_suffix exampleTranslate salesRoot ["7"] ⟨"Total", ""⟩).1
      ["Sales", "Region", "Total"] (by decide)).2.1.mpr (by decide),
   fun hm => absurd
     (((relativeMatch_iff_suffix exampleTranslate salesRoot ["7"] ⟨"Region", ""⟩).1
        ["Sales", "Region", "Total"] (by decide)).2.1.mp hm) (by decide),
   (relativeMatch_iff_suffix exampleTranslate salesRoot ["7"] ⟨"Region|Total", ""⟩).2.1
     0 salesLeaf "7"
     ⟨rfl, ⟨["Sales"], by decide⟩, fun i _ hi _ => absurd hi (Nat.not_lt_zero i)⟩ rfl,
   (relativeMatch_iff_suffix exampleTranslate salesRoot ["7"] ⟨"Total", ""⟩).2.1
     0 salesLeaf "7"
     ⟨rfl, ⟨["Sales", "Region"], by decide⟩, fun i _ hi _ => absurd hi (Nat.not_lt_zero i)⟩
     rfl,
   (relativeMatch_iff_suffix exampleTranslate salesRoot ["7"] ⟨"Region", "zero"⟩).2.2.1
     (by
       intro l hl
       have hleaves : leafIndex salesRoot = [salesLeaf] := rfl
       rw [hleaves] at hl
       have hl1 : l = salesLeaf := List.mem_singleton.mp hl
       subst hl1
       have hpath : stringsSplit "Region" '|' = ["Region"] := by decide
       rw [hpath]
       refine ⟨by decide, ?_⟩
       rintro ⟨front, hfront⟩
       have hlast := congrArg List.getLast? hfront
       simp [salesLeaf, Importer.new] at hlast)⟩

/-! ## Header consistency (C4) -/

theorem isHeaderConsistent_fields_completed {V : Type} (leafNodes : List Importer)
    (lastRespLength : Nat) (fields : List (Field V)) (i : Nat) :
    IsHeaderConsistent.fields leafNodes lastRespLength fields i = .completed ↔
      fields.map (fun field => stringsSplit field.tag '|')
        <+: (leafNodes.drop (lastRespLength + i)).map (fun leafNode => leafNode.path) := by
  induction fields generalizing i with
  | nil => simp [IsHeaderConsistent.fields]
  | cons field rest ih =>
    unfold IsHeaderConsistent.fields
    cases hget : leafNodes[lastRespLength + i]? with
    | none =>
      have hlen : leafNodes.length ≤ lastRespLength + i := by
        by_contra hc
        rw [List.getElem?_eq_getElem (by omega)] at hget
        cases hget
      simp [List.drop_eq_nil_of_le hlen]
    | some leafNode =>
      have hlt : lastRespLength + i < leafNodes.length := by
        by_contra hc
        rw [List.getElem?_eq_none (by omega)] at hget
        cases hget
      have hdrop : leafNodes.drop (lastRespLength + i)
          = leafNode :: leafNodes.drop (lastRespLength + (i + 1)) := by
        rw [List.getElem?_eq_getElem hlt] at hget
        cases hget
        exact List.drop_eq_getElem_cons hlt
      simp only [hdrop, List.map_cons, List.cons_prefix_cons]
      by_cases heq : leafNode.path = stringsSplit field.tag '|'
      · have hde : deepEqual leafNode.path (stringsSplit field.tag '|') = true :=
          (deepEqual_iff _ _).mpr heq
        simp only [hde, Bool.not_true, Bool.false_eq_true, if_false]
        rw [ih (i + 1)]
        simp [heq]
      · have hde : deepEqual leafNode.path (stringsSplit field.tag '|') = false := by
          cases hb : deepEqual leafNode.path (stringsSplit field.tag '|')
          · rfl
          · exact absurd ((deepEqual_iff _ _).mp hb) heq
        simp only [hde, Bool.not_false, if_true]
        constructor
        · intro hx
          cases hx
        · rintro ⟨hx, _⟩
          exact absurd hx.symm heq

theorem isHeaderConsistent_resps_completed {V : Type} (leafNodes : List Importer)
    (resps : List (List (Field V))) (lastRespLength m : Nat) :
    IsHeaderConsistent.resps leafNodes resps lastRespLength = (.completed, m) ↔
      (m = lastRespLength + (fieldPaths resps).length
        ∧ fieldPaths resps
            <+: (leafNodes.drop lastRespLength).map (fun leafNode => leafNode.path)) := by
  induction resps generalizing lastRespLength with
  | nil =>
    simp [IsHeaderConsistent.resps, fieldPaths]
    exact eq_comm
  | cons resp rest ih =>
    unfold IsHeaderConsistent.resps
    have hfp : fieldPaths (resp :: rest)
        = resp.map (fun field => stringsSplit field.tag '|') ++ fieldPaths rest := by
      simp [fieldPaths]
    have hf := isHeaderConsistent_fields_completed leafNodes lastRespLength resp 0
    rw [Nat.add_zero] at hf
    cases hloop : IsHeaderConsistent.fields leafNodes lastRespLength resp 0 with
    | completed =>
      have hpre := hf.mp hloop
      simp only []
      rw [ih, hfp]
      obtain ⟨tail, htail⟩ := hpre
      have hlen : (leafNodes.drop lastRespLength).length
          = resp.length + tail.length := by
        have := congrArg List.length htail
        simp only [List.length_append, List.length_map] at this
        omega
      have hdrop : (leafNodes.drop (lastRespLength + resp.length)).map
          (fun leafNode => leafNode.path) = tail := by
        rw [← List.drop_drop, List.map_drop, ← htail]
        simp
      rw [hdrop, ← htail, List.length_append, List.length_map]
      constructor
      · rintro ⟨hm, hp⟩
        exact ⟨by omega, (List.prefix_append_right_inj _).mpr hp⟩
      · rintro ⟨hm, hp⟩
        exact ⟨by omega, (List.prefix_append_right_inj _).mp hp⟩
    | returned =>
      simp only []
      constructor
      · intro hx
        cases hx
      · rintro ⟨_, hp⟩
        rw [hfp] at hp
        have : IsHeaderConsistent.fields leafNodes lastRespLength resp 0 = .completed :=
          hf.mpr ((List.prefix_append _ _).trans hp)
        rw [hloop] at this
        cases this
    | panicked p =>
      simp only []
      constructor
      · intro hx
        cases hx
      · rintro ⟨_, hp⟩
        rw [hfp] at hp
        have : IsHeaderConsistent.fields leafNodes lastRespLength resp 0 = .completed :=
          hf.mpr ((List.prefix_append _ _).trans hp)
        rw [hloop] at this
        cases this

/-- C4. `IsHeaderConsistent` returns true exactly when the list of the binding
paths of all fields, record order then field order, equals the list of the leaf
paths of the index; in particular it returns false whenever the number of fields
differs from the number of leaves, in either direction. -/
theorem isHeaderConsistent_iff {V : Type} (root : Importer) (resps : List (List (Field V))) :
    ((IsHeaderConsistent root resps).1 = true ↔
      fieldPaths resps = (leafIndex root).map (fun leafNode => leafNode.path))
    ∧ ((fieldPaths resps).length < (leafIndex root).length →
        (IsHeaderConsistent root resps).1 = false)
    ∧ ((leafIndex root).length < (fieldPaths resps).length →
        (IsHeaderConsistent root resps).1 = false) := by
  have hmain : (IsHeaderConsistent root resps).1 = true ↔
      fieldPaths resps = (leafIndex root).map (fun leafNode => leafNode.path) := by
    unfold IsHeaderConsistent
    have hc := isHeaderConsistent_resps_completed (leafIndex root) resps 0
    simp only [List.drop_zero, Nat.zero_add] at hc
    rcases hloop : IsHeaderConsistent.resps (leafIndex root) resps 0 with ⟨loop, m⟩
    cases loop with
    | completed =>
      obtain ⟨hm, hp⟩ := (hc m).mp hloop
      simp only [hloop]
      by_cases hlen : m = (leafIndex root).length
      · rw [if_neg (not_not.mpr hlen)]
        simp only [true_iff]
        exact hp.eq_of_length (by rw [List.length_map]; omega)
      · rw [if_pos hlen]
        simp only [Bool.false_eq_true, false_iff]
        intro heq
        have := congrArg List.length heq
        rw [List.length_map] at this
        omega
    | returned =>
      simp only [hloop, Bool.false_eq_true, false_iff]
      intro heq
      have := (hc (fieldPaths resps).length).mpr ⟨rfl, by rw [heq]⟩
      rw [hloop] at this
      cases this
    | panicked p =>
      simp only [hloop, Bool.false_eq_true, false_iff]
      intro heq
      have := (hc (fieldPaths resps).length).mpr ⟨rfl, by rw [heq]⟩
      rw [hloop] at this
      cases this
  have hfalse : (fieldPaths resps).length ≠ (leafIndex root).length →
      (IsHeaderConsistent root resps).1 = false := by
    intro hne
    cases hb : (IsHeaderConsistent root resps).1
    · rfl
    · have := congrArg List.length (hmain.mp hb)
      rw [List.length_map] at this
      exact absurd this hne
  exact ⟨hmain, fun h => hfalse (by omega), fun h => hfalse (by omega)⟩

/-- C4, witness: two fields bound to `X|Y` and `X|Z` are consistent with the example
tree, and one field alone is not. -/
theorem isHeaderConsistent_iff_witness :
    (IsHeaderConsistent exampleRoot [[(⟨"X|Y", ""⟩ : Field String), ⟨"X|Z", ""⟩]]).1 = true
    ∧ (IsHeaderConsistent exampleRoot [[(⟨"X|Y", ""⟩ : Field String)]]).1 = false :=
  ⟨(isHeaderConsistent_iff exampleRoot [[⟨"X|Y", ""⟩, ⟨"X|Z", ""⟩]]).1.mpr (by decide),
   (isHeaderConsistent_iff exampleRoot [[⟨"X|Y", ""⟩]]).2.1 (by decide)⟩

/-! ## One result per row (C5) -/

/-- C5, at the failing input: on the example tree, the row `1, oops` and a record
with the fields `X|Y` and `X|Z`, the second translation fails and `asyncScanRow`
sends two results on the channel, one at the failure and one at its end. -/
theorem asyncScanRow_sends_twice_on_failure :
    (asyncScanRow exampleTranslate exampleRoot ["1", "oops"]
      [[⟨"X|Y", ""⟩, ⟨"X|Z", ""⟩]]).length = 2
    ∧ (ScanExRow exampleTranslate exampleRoot ["1", "oops"]
        [[⟨"X|Y", ""⟩, ⟨"X|Z", ""⟩]]).err = some (.translate "bad cell") := by
  decide

/-! ## Default worker count (C6) -/

/-- C6, at the failing input: for a document opened without the
`AsyncScanWorkerNums` option, `initImporters` gives the sheet root and every node of
its tree the worker count 0, not 100. -/
theorem initImporters_default_worker_count :
    (initImporters cellNameToCoordinates 3 (fun _ => .ok 2) (fun _ => .ok exampleSpans)
        exampleExcel).map
      (fun r => r.1.importers.map
        (fun root => (subtrees root).map (fun node => node.asyncScanWorkerNums)))
      = some [[0, 0, 0, 0]] := by
  decide

/-! ## Tree construction: fuel -/

theorem buildImporterTree_loop_mono (conv : CellNameToCoordinates)
    (recur recur1 : Importer → Option (Except GoError (List Importer)))
    (hrec : ∀ node r, recur node = some r → recur1 node = some r) (root : Importer)
    (cells : List MergeCell) (r : Except GoError (List Importer))
    (h : buildImporterTree.loop conv recur root cells = some r) :
    buildImporterTree.loop conv recur1 root cells = some r := by
  induction cells generalizing r with
  | nil => simpa [buildImporterTree.loop] using h
  | cons cell rest ih =>
    unfold buildImporterTree.loop at h ⊢
    cases hnode : buildNodeByCell conv cell with
    | error err => simpa [hnode] using h
    | ok node =>
      simp only [hnode] at h ⊢
      generalize hn : ({ node with
          asyncScanWorkerNums := root.asyncScanWorkerNums
          withHumanErrorMsg := root.withHumanErrorMsg
          path := (node.path ++ root.path) ++ [cell.cellValue] } : Importer) = node1 at h ⊢
      cases hr : recur node1 with
      | none => simp [hr] at h
      | some x =>
        rw [hrec node1 x hr]
        rw [hr] at h
        cases x with
        | error err => simpa using h
        | ok children =>
          simp only [] at h ⊢
          cases hl : buildImporterTree.loop conv recur root rest with
          | none => simp [hl] at h
          | some y =>
            rw [ih y hl]
            rw [hl] at h
            exact h

theorem buildImporterTree_mono (conv : CellNameToCoordinates) (fuel : Nat) (root : Importer)
    (mergeCells : List MergeCell) (r : Except GoError (List Importer))
    (h : buildImporterTree conv fuel root mergeCells = some r) :
    buildImporterTree conv (fuel + 1) root mergeCells = some r := by
  induction fuel generalizing root r with
  | zero => simp [buildImporterTree] at h
  | succ fuel ih =>
    rw [buildImporterTree] at h ⊢
    cases hb : childrenColBoundaryIndex conv root mergeCells with
    | error err => simpa [hb] using h
    | ok se =>
      obtain ⟨start, endIdx⟩ := se
      simp only [hb] at h ⊢
      by_cases hneg : endIdx < 0
      · simpa [hneg] using h
      · simp only [hneg, if_false] at h ⊢
        exact buildImporterTree_loop_mono conv _ _ (fun node r hr => ih node r hr) root _ r h

theorem buildImporterTree_mono_add (conv : CellNameToCoordinates) (fuel n : Nat)
    (root : Importer) (mergeCells : List MergeCell) (r : Except GoError (List Importer))
    (h : buildImporterTree conv fuel root mergeCells = some r) :
    buildImporterTree conv (fuel + n) root mergeCells = some r := by
  induction n with
  | zero => exact h
  | succ n ih => exact buildImporterTree_mono conv (fuel + n) root mergeCells r ih

/-! ## Tree construction example (C7) -/

/-- C7. For every cell-name conversion that reads `A1, B1, A2, B2` as the columns and
rows `(1,1), (2,1), (1,2), (2,2)`: from a root covering the columns 1 to 2 with
`rowEnd` 0 and the spans `A1:B1 X, A2:A2 Y, B2:B2 Z`, `buildImporterTree` returns,
for every recursion bound of at least 3, the single child `X` whose children are
`Y` and `Z`, both without children; the leaf list of the tree is the two nodes with
the paths `X, Y` and `X, Z`, in that order. -/
theorem buildImporterTree_example (conv : CellNameToCoordinates)
    (hA1 : conv "A1" = .ok (1, 1)) (hB1 : conv "B1" = .ok (2, 1))
    (hA2 : conv "A2" = .ok (1, 2)) (hB2 : conv "B2" = .ok (2, 2)) (n : Nat) :
    ∃ x y z : Importer,
      buildImporterTree conv (3 + n) exampleStub exampleSpans = some (.ok [x])
      ∧ x.value = "X" ∧ x.childImporters = [y, z]
      ∧ y.value = "Y" ∧ y.childImporters = []
      ∧ z.value = "Z" ∧ z.childImporters = []
      ∧ getLeafNodes { exampleStub with childImporters := [x] } = [y, z]
      ∧ y.path = ["X", "Y"] ∧ z.path = ["X", "Z"] := by
  have hbuild : buildImporterTree conv 3 exampleStub exampleSpans
      = some (.ok [exampleNodeX]) := by
    simp [buildImporterTree, childrenColBoundaryIndex, childrenColBoundaryIndex.loop,
      buildImporterTree.loop, buildNodeByCell, exampleSpans, exampleStub, Importer.new,
      exampleNodeX, exampleLeafY, exampleLeafZ, hA1, hB1, hA2, hB2]
  exact ⟨exampleNodeX, exampleLeafY, exampleLeafZ,
    buildImporterTree_mono_add _ 3 n _ _ _ hbuild, rfl, rfl, rfl, rfl, rfl, rfl, rfl, rfl, rfl⟩

/-- C7, witness: the conversion `cellNameToCoordinates` reads the four cell names
so, and with the recursion bound 3 the tree is the example tree. -/
theorem buildImporterTree_example_witness :
    ∃ x y z : Importer,
      buildImporterTree cellNameToCoordinates (3 + 0) exampleStub exampleSpans
        = some (.ok [x])
      ∧ x.value = "X" ∧ x.childImporters = [y, z]
      ∧ y.value = "Y" ∧ y.childImporters = []
      ∧ z.value = "Z" ∧ z.childImporters = []
      ∧ getLeafNodes { exampleStub with childImporters := [x] } = [y, z]
      ∧ y.path = ["X", "Y"] ∧ z.path = ["X", "Z"] :=
  buildImporterTree_example cellNameToCoordinates rfl rfl rfl rfl 0

/-! ## Failure attribution in `ScanExRow` (C2) -/

theorem boundTo_unique {leafNodes : List Importer} {path : List String} {j j1 : Nat}
    {leafNode leafNode1 : Importer} (h : BoundTo leafNodes path j leafNode)
    (h1 : BoundTo leafNodes path j1 leafNode1) : j = j1 ∧ leafNode = leafNode1 := by
  obtain ⟨hget, hpath, hmin⟩ := h
  obtain ⟨hget1, hpath1, hmin1⟩ := h1
  have hj : j = j1 := by
    rcases Nat.lt_trichotomy j j1 with hlt | heq | hgt
    · exact absurd hpath (hmin1 j leafNode hlt hget)
    · exact heq
    · exact absurd hpath1 (hmin j1 leafNode1 hgt hget1)
  subst hj
  rw [hget] at hget1
  exact ⟨rfl, Option.some.inj hget1⟩

theorem failsAt_unique {V E : Type} {translate : Translate V E} {leafNodes : List Importer}
    {row : List String} {field : Field V} {leafNode leafNode1 : Importer} {err err1 : E}
    (h : FailsAt translate leafNodes row field leafNode err)
    (h1 : FailsAt translate leafNodes row field leafNode1 err1) :
    leafNode = leafNode1 ∧ err = err1 := by
  obtain ⟨j, cell, hb, hc, ht⟩ := h
  obtain ⟨j1, cell1, hb1, hc1, ht1⟩ := h1
  obtain ⟨hj, hl⟩ := boundTo_unique hb hb1
  subst hj
  subst hl
  rw [hc] at hc1
  cases hc1
  rw [ht] at ht1
  exact ⟨rfl, Except.error.inj ht1⟩

theorem failsAt_not_translatedTo {V E : Type} {translate : Translate V E}
    {leafNodes : List Importer} {row : List String} {field field1 : Field V}
    {leafNode : Importer} {err : E} (h : FailsAt translate leafNodes row field leafNode err)
    (h1 : TranslatedTo translate leafNodes row field field1) : False := by
  obtain ⟨j, cell, hb, hc, ht⟩ := h
  obtain ⟨_, hcase⟩ := h1
  rcases hcase with ⟨hno, _⟩ | ⟨j1, leafNode1, cell1, hb1, hc1, ht1⟩
  · exact hno leafNode (List.getElem?_mem hb.1) hb.2.1
  · obtain ⟨hj, hl⟩ := boundTo_unique hb hb1
    subst hj
    subst hl
    rw [hc] at hc1
    cases hc1
    rw [ht] at ht1
    cases ht1

theorem scanLeaves_exact {V E : Type} (translate : Translate V E) (row : List String)
    (path : List String) (v : V) (rest pre : List Importer)
    (hpre : ∀ x ∈ pre, x.path ≠ path) (hlen : (pre ++ rest).length ≤ row.length) :
    (scanLeaves exactMatch translate false row path v rest pre.length = .unmatched
        ∧ ∀ x ∈ pre ++ rest, x.path ≠ path)
    ∨ (∃ j leafNode cell setValue, BoundTo (pre ++ rest) path j leafNode
        ∧ row[j]? = some cell ∧ translate v cell leafNode.colIndexStart = .ok setValue
        ∧ scanLeaves exactMatch translate false row path v rest pre.length = .set setValue)
    ∨ (∃ j leafNode cell err, BoundTo (pre ++ rest) path j leafNode
        ∧ row[j]? = some cell ∧ translate v cell leafNode.colIndexStart = .error err
        ∧ scanLeaves exactMatch translate false row path v rest pre.length
            = .aborted (.failed leafNode.colIndexStart (.translate err))) := by
  induction rest generalizing pre with
  | nil =>
    left
    exact ⟨by simp [scanLeaves], by simpa using hpre⟩
  | cons leafNode rest ih =>
    by_cases heq : leafNode.path = path
    · have hlt : pre.length < row.length := by
        simp only [List.length_append, List.length_cons] at hlen
        omega
      have hb : BoundTo (pre ++ leafNode :: rest) path pre.length leafNode := by
        refine ⟨?_, heq, ?_⟩
        · rw [List.getElem?_append_right (Nat.le_refl _), Nat.sub_self]
          simp
        intro i other hi hget
        rw [List.getElem?_append_left hi] at hget
        exact hpre other (List.getElem?_mem hget)
      have hcell : row[pre.length]? = some row[pre.length] := List.getElem?_eq_getElem hlt
      have hde : deepEqual leafNode.path path = true := (deepEqual_iff _ _).mpr heq
      right
      cases ht : translate v row[pre.length] leafNode.colIndexStart with
      | ok setValue =>
        left
        refine ⟨pre.length, leafNode, row[pre.length], setValue, hb, hcell, ht, ?_⟩
        rw [scanLeaves]
        simp only [exactMatch, hde, hcell, ht]
      | error err =>
        right
        refine ⟨pre.length, leafNode, row[pre.length], err, hb, hcell, ht, ?_⟩
        rw [scanLeaves]
        simp only [exactMatch, hde, hcell, ht, Bool.false_eq_true, if_false]
    · have hde : deepEqual leafNode.path path = false := by
        cases hb : deepEqual leafNode.path path
        · rfl
        · exact absurd ((deepEqual_iff _ _).mp hb) heq
      have hstep : scanLeaves exactMatch translate false row path v (leafNode :: rest)
          pre.length
          = scanLeaves exactMatch translate false row path v rest (pre ++ [leafNode]).length := by
        rw [scanLeaves]
        simp only [exactMatch, hde, List.length_append, List.length_cons, List.length_nil]
      have happ : (pre ++ [leafNode]) ++ rest = pre ++ leafNode :: rest := by simp
      have := ih (pre ++ [leafNode])
        (by
          intro x hx
          rcases List.mem_append.mp hx with hx | hx
          · exact hpre x hx
          · rw [List.mem_singleton.mp hx]
            exact heq)
        (by rw [happ]; exact hlen)
      rw [happ, ← hstep] at this
      exact this

theorem scanFields_cons_cases {V E : Type} (translate : Translate V E)
    (leafNodes : List Importer) (row : List String) (hlen : leafNodes.length ≤ row.length)
    (field : Field V) (rest : List (Field V)) :
    (∃ leafNode err, FailsAt translate leafNodes row field leafNode err
        ∧ scanFields exactMatch translate false leafNodes row (field :: rest)
            = (field :: rest, some (.failed leafNode.colIndexStart (.translate err))))
    ∨ (∃ field1, TranslatedTo translate leafNodes row field field1
        ∧ scanFields exactMatch translate false leafNodes row (field :: rest)
            = (field1 :: (scanFields exactMatch translate false leafNodes row rest).1,
               (scanFields exactMatch translate false leafNodes row rest).2)) := by
  have h := scanLeaves_exact translate row (stringsSplit field.tag '|') field.value
    leafNodes [] (by simp) (by simpa using hlen)
  simp only [List.nil_append, List.length_nil] at h
  rcases h with ⟨hs, hno⟩ | ⟨j, leafNode, cell, setValue, hb, hc, ht, hs⟩
    | ⟨j, leafNode, cell, err, hb, hc, ht, hs⟩
  · right
    refine ⟨field, ⟨rfl, Or.inl ⟨hno, rfl⟩⟩, ?_⟩
    rw [scanFields]
    simp only [hs]
  · right
    refine ⟨{ field with value := setValue }, ⟨rfl, Or.inr ⟨j, leafNode, cell, hb, hc, ht⟩⟩, ?_⟩
    rw [scanFields]
    simp only [hs]
  · left
    refine ⟨leafNode, err, ⟨j, cell, hb, hc, ht⟩, ?_⟩
    rw [scanFields]
    simp only [hs]

theorem scanFields_ok {V E : Type} (translate : Translate V E) (leafNodes : List Importer)
    (row : List String) (hlen : leafNodes.length ≤ row.length) (fields : List (Field V))
    (hok : ∀ g ∈ fields, ∀ leafNode err, ¬ FailsAt translate leafNodes row g leafNode err) :
    ∃ fields1, List.Forall₂ (TranslatedTo translate leafNodes row) fields fields1
      ∧ scanFields exactMatch translate false leafNodes row fields = (fields1, none) := by
  induction fields with
  | nil => exact ⟨[], List.Forall₂.nil, by simp [scanFields]⟩
  | cons field rest ih =>
    obtain ⟨rest1, hrel, hscan⟩ := ih (fun g hg => hok g (List.mem_cons_of_mem _ hg))
    rcases scanFields_cons_cases translate leafNodes row hlen field rest with
      ⟨leafNode, err, hfail, _⟩ | ⟨field1, ht, hs⟩
    · exact absurd hfail (hok field (List.mem_cons_self _ _) leafNode err)
    · exact ⟨field1 :: rest1, List.Forall₂.cons ht hrel, by rw [hs, hscan]⟩

theorem scanFields_fail {V E : Type} (translate : Translate V E) (leafNodes : List Importer)
    (row : List String) (hlen : leafNodes.length ≤ row.length)
    (fpre : List (Field V)) (f : Field V) (fpost : List (Field V)) (leafNode : Importer)
    (err : E)
    (hok : ∀ g ∈ fpre, ∀ leafNode1 err1, ¬ FailsAt translate leafNodes row g leafNode1 err1)
    (hf : FailsAt translate leafNodes row f leafNode err) :
    ∃ fpre1, List.Forall₂ (TranslatedTo translate leafNodes row) fpre fpre1
      ∧ scanFields exactMatch translate false leafNodes row (fpre ++ f :: fpost)
          = (fpre1 ++ f :: fpost, some (.failed leafNode.colIndexStart (.translate err))) := by
  induction fpre with
  | nil =>
    rcases scanFields_cons_cases translate leafNodes row hlen f fpost with
      ⟨leafNode1, err1, hfail, hs⟩ | ⟨field1, ht, _⟩
    · obtain ⟨hl, he⟩ := failsAt_unique hf hfail
      subst hl
      subst he
      exact ⟨[], List.Forall₂.nil, hs⟩
    · exact (failsAt_not_translatedTo hf ht).elim
  | cons field rest ih =>
    obtain ⟨rest1, hrel, hscan⟩ := ih (fun g hg => hok g (List.mem_cons_of_mem _ hg))
    rcases scanFields_cons_cases translate leafNodes row hlen field (rest ++ f :: fpost) with
      ⟨leafNode1, err1, hfail, _⟩ | ⟨field1, ht, hs⟩
    · exact absurd hfail (hok field (List.mem_cons_self _ _) leafNode1 err1)
    · refine ⟨field1 :: rest1, List.Forall₂.cons ht hrel, ?_⟩
      rw [List.cons_append, hs, hscan]
      rfl

theorem scanResps_ok {V E : Type} (translate : Translate V E) (leafNodes : List Importer)
    (row : List String) (hlen : leafNodes.length ≤ row.length)
    (resps : List (List (Field V)))
    (hok : ∀ g ∈ resps.flatten, ∀ leafNode err,
      ¬ FailsAt translate leafNodes row g leafNode err) :
    ∃ resps1, List.Forall₂ (List.Forall₂ (TranslatedTo translate leafNodes row)) resps resps1
      ∧ scanResps exactMatch translate false leafNodes row resps = (resps1, none) := by
  induction resps with
  | nil => exact ⟨[], List.Forall₂.nil, by simp [scanResps]⟩
  | cons resp rest ih =>
    obtain ⟨rest1, hrel, hscan⟩ := ih (fun g hg => hok g (by
      rw [List.flatten_cons]
      exact List.mem_append_right _ hg))
    obtain ⟨resp1, hrel1, hscan1⟩ := scanFields_ok translate leafNodes row hlen resp
      (fun g hg => hok g (by
        rw [List.flatten_cons]
        exact List.mem_append_left _ hg))
    refine ⟨resp1 :: rest1, List.Forall₂.cons hrel1 hrel, ?_⟩
    rw [scanResps, hscan1]
    simp only [hscan]

theorem scanResps_fail {V E : Type} (translate : Translate V E) (leafNodes : List Importer)
    (row : List String) (hlen : leafNodes.length ≤ row.length)
    (pre : List (List (Field V))) (fpre : List (Field V)) (f : Field V)
    (fpost : List (Field V)) (post : List (List (Field V))) (leafNode : Importer) (err : E)
    (hok : ∀ g ∈ pre.flatten ++ fpre, ∀ leafNode1 err1,
      ¬ FailsAt translate leafNodes row g leafNode1 err1)
    (hf : FailsAt translate leafNodes row f leafNode err) :
    ∃ pre1 fpre1,
      List.Forall₂ (List.Forall₂ (TranslatedTo translate leafNodes row)) pre pre1
      ∧ List.Forall₂ (TranslatedTo translate leafNodes row) fpre fpre1
      ∧ scanResps exactMatch translate false leafNodes row (pre ++ (fpre ++ f :: fpost) :: post)
          = (pre1 ++ (fpre1 ++ f :: fpost) :: post,
             some (.failed leafNode.colIndexStart (.translate err))) := by
  induction pre with
  | nil =>
    obtain ⟨fpre1, hrel, hscan⟩ := scanFields_fail translate leafNodes row hlen fpre f fpost
      leafNode err (fun g hg => hok g (by simpa using hg)) hf
    refine ⟨[], fpre1, List.Forall₂.nil, hrel, ?_⟩
    rw [List.nil_append, scanResps, hscan]
    rfl
  | cons resp rest ih =>
    obtain ⟨rest1, fpre1, hrel, hrelf, hscan⟩ := ih (fun g hg => hok g (by
      rw [List.flatten_cons, List.append_assoc]
      exact List.mem_append_right _ hg))
    obtain ⟨resp1, hrel1, hscan1⟩ := scanFields_ok translate leafNodes row hlen resp
      (fun g hg => hok g (by
        rw [List.flatten_cons, List.append_assoc]
        exact List.mem_append_left _ hg))
    refine ⟨resp1 :: rest1, fpre1, List.Forall₂.cons hrel1 hrel, hrelf, ?_⟩
    rw [List.cons_append, scanResps, hscan1]
    simp only [hscan]
    rfl

/-- C2. With human-readable mode off, if the first translator failure of
`ScanExRow` occurs at a field bound to the leaf `leafNode` (every field of the
earlier records and every earlier field of the same record translates or is
unmatched), the scan returns exactly `leafNode.colIndexStart` and the error of the
translator; the fields visited before hold their translated value when they
matched a leaf and are unchanged otherwise, and the failing field, the later
fields and the later records are unchanged. When no translator call fails the scan
returns 0 and no error, every field being translated or unmatched. -/
theorem scanExRow_failure_attribution {V E : Type} (translate : Translate V E)
    (root : Importer) (row : List String) (resps : List (List (Field V)))
    (hHuman : root.withHumanErrorMsg = false) :
    (∀ pre fpre f fpost post leafNode err,
      resps = pre ++ (fpre ++ f :: fpost) :: post →
      (∀ g ∈ pre.flatten ++ fpre, ∀ leafNode1 err1,
        ¬ FailsAt translate (leafIndex root)
            (resizeRow (leafIndex root).length row) g leafNode1 err1) →
      FailsAt translate (leafIndex root) (resizeRow (leafIndex root).length row) f
        leafNode err →
      (ScanExRow translate root row resps).scanErrColIndex = leafNode.colIndexStart
      ∧ (ScanExRow translate root row resps).err = some (.translate err)
      ∧ ∃ pre1 fpre1,
          List.Forall₂ (List.Forall₂ (TranslatedTo translate (leafIndex root)
            (resizeRow (leafIndex root).length row))) pre pre1
          ∧ List.Forall₂ (TranslatedTo translate (leafIndex root)
            (resizeRow (leafIndex root).length row)) fpre fpre1
          ∧ (ScanExRow translate root row resps).resps
              = pre1 ++ (fpre1 ++ f :: fpost) :: post)
    ∧ ((∀ g ∈ resps.flatten, ∀ leafNode err,
          ¬ FailsAt translate (leafIndex root)
              (resizeRow (leafIndex root).length row) g leafNode err) →
        (ScanExRow translate root row resps).scanErrColIndex = 0
        ∧ (ScanExRow translate root row resps).err = none
        ∧ List.Forall₂ (List.Forall₂ (TranslatedTo translate (leafIndex root)
            (resizeRow (leafIndex root).length row))) resps
            (ScanExRow translate root row resps).resps) := by
  have hlen : (leafIndex root).length ≤ (resizeRow (leafIndex root).length row).length := by
    rw [resizeRow_length]
  constructor
  · intro pre fpre f fpost post leafNode err hsplit hok hf
    obtain ⟨pre1, fpre1, hrel, hrelf, hscan⟩ := scanResps_fail translate (leafIndex root)
      (resizeRow (leafIndex root).length row) hlen pre fpre f fpost post leafNode err hok hf
    have hres : ScanExRow translate root row resps
        = { resps := pre1 ++ (fpre1 ++ f :: fpost) :: post,
            scanErrColIndex := leafNode.colIndexStart, err := some (.translate err) } := by
      simp only [ScanExRow, scanExRowWith, hHuman, hsplit, hscan]
    rw [hres]
    exact ⟨rfl, rfl, pre1, fpre1, hrel, hrelf, rfl⟩
  · intro hok
    obtain ⟨resps1, hrel, hscan⟩ := scanResps_ok translate (leafIndex root)
      (resizeRow (leafIndex root).length row) hlen resps hok
    have hres : ScanExRow translate root row resps
        = { resps := resps1, scanErrColIndex := 0, err := none } := by
      simp only [ScanExRow, scanExRowWith, hHuman, hscan]
    rw [hres]
    exact ⟨rfl, rfl, hrel⟩

/-- C2, witness: on the example tree and the row `1, oops`, the second field of the
first record is bound to the leaf `Z` in column 2 and its translation fails; the
scan returns column 2 with the error of the translator, the first field holds `1`,
and the rest is unchanged. -/
theorem scanExRow_failure_attribution_witness :
    (ScanExRow exampleTranslate exampleRoot ["1", "oops"] exampleResps).scanErrColIndex = 2
    ∧ (ScanExRow exampleTranslate exampleRoot ["1", "oops"] exampleResps).err
        = some (.translate "bad cell")
    ∧ ∃ pre1 fpre1,
        List.Forall₂ (List.Forall₂ (TranslatedTo exampleTranslate (leafIndex exampleRoot)
          (resizeRow (leafIndex exampleRoot).length ["1", "oops"]))) [] pre1
        ∧ List.Forall₂ (TranslatedTo exampleTranslate (leafIndex exampleRoot)
          (resizeRow (leafIndex exampleRoot).length ["1", "oops"])) [⟨"X|Y", ""⟩] fpre1
        ∧ (ScanExRow exampleTranslate exampleRoot ["1", "oops"] exampleResps).resps
            = pre1 ++ (fpre1 ++ ⟨"X|Z", ""⟩ :: [⟨"X|Y", "kept"⟩]) :: [[⟨"X|Y", "later"⟩]] :=
  (scanExRow_failure_attribution exampleTranslate exampleRoot ["1", "oops"] exampleResps
      rfl).1
    [] [⟨"X|Y", ""⟩] ⟨"X|Z", ""⟩ [⟨"X|Y", "kept"⟩] [[⟨"X|Y", "later"⟩]] exampleLeafZ
    "bad cell" rfl
    (by
      intro g hg leafNode1 err1 hfail
      have hg1 : g = ⟨"X|Y", ""⟩ := by simpa using hg
      subst hg1
      obtain ⟨j, cell, ⟨hget, hpath, hmin⟩, hc, ht⟩ := hfail
      have hleaves : leafIndex exampleRoot = [exampleLeafY, exampleLeafZ] := rfl
      have hrow : resizeRow (leafIndex exampleRoot).length ["1", "oops"] = ["1", "oops"] :=
        rfl
      rw [hleaves] at hget hmin
      rw [hrow] at hc
      cases j with
      | zero =>
        have hcell : cell = "1" := by simpa using hc.symm
        subst hcell
        simp [exampleTranslate] at ht
      | succ k =>
        exact hmin 0 exampleLeafY (Nat.succ_pos k) rfl (by decide))
    ⟨1, "oops", ⟨rfl, by decide, by
      intro i other hi hget
      have hi0 : i = 0 := by omega
      subst hi0
      have hother : other = exampleLeafY := (Option.some.inj hget).symm
      subst hother
      decide⟩, rfl, rfl⟩

/-! ## Tree construction: the boundary indices -/

theorem childrenColBoundaryIndex_loop_spec (conv : CellNameToCoordinates) (root : Importer)
    (cells : List MergeCell) (i : Nat) (s0 e0 s e : Int)
    (h : childrenColBoundaryIndex.loop conv root cells i s0 e0 = .ok (s, e)) :
    (e = e0 ∨ ∃ k cell, cells[k]? = some cell ∧ e = ((i + k : Nat) : Int)
        ∧ Closes conv root cell)
    ∧ (s = s0 ∨ ∃ k cell, cells[k]? = some cell ∧ s = ((i + k : Nat) : Int)
        ∧ Opens conv root cell ∧ (s ≤ e ∨ e = e0)) := by
  induction cells generalizing i s0 with
  | nil =>
    simp only [childrenColBoundaryIndex.loop, Except.ok.injEq, Prod.mk.injEq] at h
    exact ⟨Or.inl h.2.symm, Or.inl h.1.symm⟩
  | cons cell rest ih =>
    rw [childrenColBoundaryIndex.loop] at h
    cases hs : conv cell.startAxis with
    | error err => simp [hs] at h
    | ok sp =>
      obtain ⟨cs, r⟩ := sp
      cases he : conv cell.endAxis with
      | error err => simp [hs, he] at h
      | ok ep =>
        obtain ⟨ce, r2⟩ := ep
        simp only [hs, he] at h
        have shiftE : ∀ {x : Int}, (∃ k cell1, rest[k]? = some cell1
            ∧ x = ((i + 1 + k : Nat) : Int) ∧ Closes conv root cell1) →
            ∃ k cell1, (cell :: rest)[k]? = some cell1 ∧ x = ((i + k : Nat) : Int)
              ∧ Closes conv root cell1 := by
          rintro x ⟨k, cell1, hk, hx, hc⟩
          exact ⟨k + 1, cell1, by simpa using hk, by rw [hx]; congr 1; omega, hc⟩
        have shiftS : ∀ {x : Int}, (∃ k cell1, rest[k]? = some cell1
            ∧ x = ((i + 1 + k : Nat) : Int) ∧ Opens conv root cell1 ∧ (x ≤ e ∨ e = e0)) →
            ∃ k cell1, (cell :: rest)[k]? = some cell1 ∧ x = ((i + k : Nat) : Int)
              ∧ Opens conv root cell1 ∧ (x ≤ e ∨ e = e0) := by
          rintro x ⟨k, cell1, hk, hx, hc, hle⟩
          exact ⟨k + 1, cell1, by simpa using hk, by rw [hx]; congr 1; omega, hc, hle⟩
        by_cases hg : r > root.rowIndexEnd ∧ cs ≥ root.colIndexStart ∧ ce ≤ root.colIndexEnd
        · rw [if_pos hg] at h
          by_cases hce : ce = root.colIndexEnd
          · simp only [hce, if_true, Except.ok.injEq, Prod.mk.injEq] at h
            obtain ⟨hs1, he1⟩ := h
            refine ⟨Or.inr ⟨0, cell, by simp, by rw [← he1]; simp,
              ⟨cs, r, ce, r2, hs, he, hg.1, hg.2.1, hce⟩⟩, ?_⟩
            by_cases hcs : cs = root.colIndexStart
            · rw [if_pos hcs] at hs1
              exact Or.inr ⟨0, cell, by simp, by rw [← hs1]; simp,
                ⟨cs, r, ce, r2, hs, he, hg.1, hcs, hg.2.2⟩, Or.inl (by omega)⟩
            · rw [if_neg hcs] at hs1
              exact Or.inl hs1.symm
          · simp only [hce, if_false] at h
            obtain ⟨hE, hS⟩ := ih (i + 1) _ h
            refine ⟨hE.imp id shiftE, ?_⟩
            rcases hS with hS | hS
            · by_cases hcs : cs = root.colIndexStart
              · rw [if_pos hcs] at hS
                refine Or.inr ⟨0, cell, by simp, by rw [hS]; simp,
                  ⟨cs, r, ce, r2, hs, he, hg.1, hcs, hg.2.2⟩, ?_⟩
                rcases hE with hE | ⟨k, _, _, hk, _⟩
                · exact Or.inr hE
                · left
                  rw [hS, hk]
                  push_cast
                  omega
              · rw [if_neg hcs] at hS
                exact Or.inl hS
            · exact Or.inr (shiftS hS)
        · rw [if_neg hg] at h
          obtain ⟨hE, hS⟩ := ih (i + 1) _ h
          exact ⟨hE.imp id shiftE, hS.imp id shiftS⟩

theorem childrenColBoundaryIndex_spec (conv : CellNameToCoordinates) (root : Importer)
    (mergeCells : List MergeCell) (s e : Int)
    (h : childrenColBoundaryIndex conv root mergeCells = .ok (s, e)) (he : ¬ e < 0) :
    0 ≤ s ∧ s ≤ e
    ∧ (∃ cell, mergeCells[e.toNat]? = some cell ∧ Closes conv root cell)
    ∧ (0 < s → ∃ cell, mergeCells[s.toNat]? = some cell ∧ Opens conv root cell) := by
  obtain ⟨hE, hS⟩ := childrenColBoundaryIndex_loop_spec conv root mergeCells 0 0 (-1) s e h
  have hE1 : ∃ k cell, mergeCells[k]? = some cell ∧ e = ((0 + k : Nat) : Int)
      ∧ Closes conv root cell := by
    rcases hE with hE | hE
    · omega
    · exact hE
  obtain ⟨k, cell, hk, hek, hc⟩ := hE1
  have hek1 : e.toNat = k := by omega
  rcases hS with hS | ⟨k1, cell1, hk1, hsk, ho, hle⟩
  · exact ⟨by omega, by omega, ⟨cell, by rw [hek1]; exact hk, hc⟩, fun hpos => by omega⟩
  · have hsk1 : s.toNat = k1 := by omega
    exact ⟨by omega, by omega, ⟨cell, by rw [hek1]; exact hk, hc⟩,
      fun _ => ⟨cell1, by rw [hsk1]; exact hk1, ho⟩⟩

theorem childrenColBoundaryIndex_loop_opens (conv : CellNameToCoordinates) (root : Importer)
    (cells : List MergeCell) (i : Nat) (s0 e0 s e : Int)
    (h : childrenColBoundaryIndex.loop conv root cells i s0 e0 = .ok (s, e))
    (k : Nat) (cell : MergeCell) (hk : cells[k]? = some cell) (ho : Opens conv root cell)
    (hke : ((i + k : Nat) : Int) ≤ e) :
    ∃ k1 cell1, cells[k1]? = some cell1 ∧ s = ((i + k1 : Nat) : Int)
      ∧ Opens conv root cell1 := by
  induction cells generalizing i s0 k with
  | nil => simp at hk
  | cons c rest ih =>
    rw [childrenColBoundaryIndex.loop] at h
    cases hs : conv c.startAxis with
    | error err => simp [hs] at h
    | ok sp =>
      obtain ⟨cs, r⟩ := sp
      cases he : conv c.endAxis with
      | error err => simp [hs, he] at h
      | ok ep =>
        obtain ⟨ce, r2⟩ := ep
        simp only [hs, he] at h
        have shift : (∃ k1 cell1, rest[k1]? = some cell1 ∧ s = ((i + 1 + k1 : Nat) : Int)
            ∧ Opens conv root cell1) →
            ∃ k1 cell1, (c :: rest)[k1]? = some cell1 ∧ s = ((i + k1 : Nat) : Int)
              ∧ Opens conv root cell1 := by
          rintro ⟨k1, cell1, hk1, hx, hc⟩
          exact ⟨k1 + 1, cell1, by simpa using hk1, by rw [hx]; congr 1; omega, hc⟩
        have hhead : k = 0 → r > root.rowIndexEnd ∧ cs = root.colIndexStart
            ∧ ce ≤ root.colIndexEnd := by
          intro hk0
          subst hk0
          simp only [List.getElem?_cons_zero, Option.some.injEq] at hk
          subst hk
          obtain ⟨cs1, r1, ce1, r21, h1, h2, hr, hcs, hce⟩ := ho
          rw [hs] at h1
          rw [he] at h2
          simp only [Except.ok.injEq, Prod.mk.injEq] at h1 h2
          obtain ⟨h1a, h1b⟩ := h1
          obtain ⟨h2a, _⟩ := h2
          subst h1a
          subst h1b
          subst h2a
          exact ⟨hr, hcs, hce⟩
        have htail : ∀ k2, k = k2 + 1 → rest[k2]? = some cell := by
          intro k2 hk2
          subst hk2
          simpa using hk
        by_cases hg : r > root.rowIndexEnd ∧ cs ≥ root.colIndexStart ∧ ce ≤ root.colIndexEnd
        · rw [if_pos hg] at h
          by_cases hce : ce = root.colIndexEnd
          · simp only [hce, if_true, Except.ok.injEq, Prod.mk.injEq] at h
            obtain ⟨hs1, he1⟩ := h
            have hk0 : k = 0 := by omega
            obtain ⟨hr, hcs, hcele⟩ := hhead hk0
            rw [if_pos hcs] at hs1
            exact ⟨0, c, by simp, by rw [← hs1]; simp,
              ⟨cs, r, ce, r2, hs, he, hr, hcs, hcele⟩⟩
          · simp only [hce, if_false] at h
            cases k with
            | zero =>
              obtain ⟨hr, hcs, hcele⟩ := hhead rfl
              rw [if_pos hcs] at h
              have hc : Opens conv root c := ⟨cs, r, ce, r2, hs, he, hr, hcs, hcele⟩
              rcases (childrenColBoundaryIndex_loop_spec conv root rest (i + 1) _ e0 s e h).2
                with hS | ⟨k1, cell1, hk1, hx, hc1, _⟩
              · exact ⟨0, c, by simp, by rw [hS]; simp, hc⟩
              · exact shift ⟨k1, cell1, hk1, hx, hc1⟩
            | succ k2 =>
              exact shift (ih (i + 1) _ h k2 (htail k2 rfl) (by
                have : ((i + 1 + k2 : Nat) : Int) = ((i + (k2 + 1) : Nat) : Int) := by
                  congr 1
                  omega
                rw [this]
                exact hke))
        · rw [if_neg hg] at h
          cases k with
          | zero =>
            obtain ⟨hr, hcs, hcele⟩ := hhead rfl
            exact absurd ⟨hr, le_of_eq hcs.symm, hcele⟩ hg
          | succ k2 =>
            exact shift (ih (i + 1) _ h k2 (htail k2 rfl) (by
              have : ((i + 1 + k2 : Nat) : Int) = ((i + (k2 + 1) : Nat) : Int) := by
                congr 1
                omega
              rw [this]
              exact hke))

theorem childrenColBoundaryIndex_start_set (conv : CellNameToCoordinates) (root : Importer)
    (mergeCells : List MergeCell) (s e : Int)
    (h : childrenColBoundaryIndex conv root mergeCells = .ok (s, e))
    (k : Nat) (cell : MergeCell) (hk : mergeCells[k]? = some cell)
    (ho : Opens conv root cell) (hke : (k : Int) ≤ e) :
    ∃ cell1, mergeCells[s.toNat]? = some cell1 ∧ Opens conv root cell1 := by
  obtain ⟨k1, cell1, hk1, hs, ho1⟩ :=
    childrenColBoundaryIndex_loop_opens conv root mergeCells 0 0 (-1) s e h k cell hk ho
      (by rw [Nat.zero_add]; exact hke)
  have hs1 : s.toNat = k1 := by omega
  exact ⟨cell1, by rw [hs1]; exact hk1, ho1⟩

theorem childrenColBoundaryIndex_loop_congr (conv : CellNameToCoordinates)
    (root root1 : Importer) (h1 : root1.rowIndexEnd = root.rowIndexEnd)
    (h2 : root1.colIndexStart = root.colIndexStart)
    (h3 : root1.colIndexEnd = root.colIndexEnd) (cells : List MergeCell) (i : Nat)
    (s0 e0 : Int) :
    childrenColBoundaryIndex.loop conv root1 cells i s0 e0
      = childrenColBoundaryIndex.loop conv root cells i s0 e0 := by
  induction cells generalizing i s0 with
  | nil => simp [childrenColBoundaryIndex.loop]
  | cons cell rest ih =>
    rw [childrenColBoundaryIndex.loop, childrenColBoundaryIndex.loop]
    simp only [h1, h2, h3, ih]

theorem childrenColBoundaryIndex_with_children (conv : CellNameToCoordinates)
    (root : Importer) (children : List Importer) (mergeCells : List MergeCell) :
    childrenColBoundaryIndex conv { root with childImporters := children } mergeCells
      = childrenColBoundaryIndex conv root mergeCells :=
  childrenColBoundaryIndex_loop_congr conv root { root with childImporters := children }
    rfl rfl rfl mergeCells 0 0 (-1)

/-! ## Tree construction: the children of a node -/

theorem buildImporterTree_loop_spec (conv : CellNameToCoordinates) (fuel : Nat)
    (mergeCells : List MergeCell) (root : Importer) (cells : List MergeCell)
    (cs : List Importer)
    (h : buildImporterTree.loop conv (fun node => buildImporterTree conv fuel node mergeCells)
      root cells = some (.ok cs)) :
    List.Forall₂ (BuiltFrom conv fuel mergeCells root) cells cs := by
  induction cells generalizing cs with
  | nil =>
    simp only [buildImporterTree.loop, Option.some.injEq, Except.ok.injEq] at h
    rw [← h]
    exact List.Forall₂.nil
  | cons cell rest ih =>
    unfold buildImporterTree.loop at h
    cases hnode : buildNodeByCell conv cell with
    | error err => simp [hnode] at h
    | ok node =>
      simp only [hnode] at h
      cases hr : buildImporterTree conv fuel
          { node with
            asyncScanWorkerNums := root.asyncScanWorkerNums
            withHumanErrorMsg := root.withHumanErrorMsg
            path := (node.path ++ root.path) ++ [cell.cellValue] } mergeCells with
      | none =>
        rw [hr] at h
        cases h
      | some x =>
        cases x with
        | error err =>
          rw [hr] at h
          cases h
        | ok children =>
          rw [hr] at h
          simp only [] at h
          cases hl : buildImporterTree.loop conv
              (fun node => buildImporterTree conv fuel node mergeCells) root rest with
          | none =>
            rw [hl] at h
            cases h
          | some y =>
            cases y with
            | error err =>
              rw [hl] at h
              cases h
            | ok res =>
              rw [hl] at h
              simp only [Option.some.injEq, Except.ok.injEq] at h
              rw [← h]
              exact List.Forall₂.cons ⟨node, children, hnode, hr, rfl⟩ (ih res hl)

theorem buildImporterTree_children (conv : CellNameToCoordinates) (fuel : Nat)
    (root : Importer) (mergeCells : List MergeCell) (cs : List Importer)
    (h : buildImporterTree conv fuel root mergeCells = some (.ok cs)) :
    ∃ fuel1 s e, fuel = fuel1 + 1 ∧ childrenColBoundaryIndex conv root mergeCells = .ok (s, e)
      ∧ ((e < 0 ∧ cs = [])
        ∨ (¬ e < 0 ∧ List.Forall₂ (BuiltFrom conv fuel1 mergeCells root)
            ((mergeCells.drop s.toNat).take (e + 1 - s).toNat) cs)) := by
  cases fuel with
  | zero => simp [buildImporterTree] at h
  | succ fuel1 =>
    rw [buildImporterTree] at h
    cases hb : childrenColBoundaryIndex conv root mergeCells with
    | error err => simp [hb] at h
    | ok se =>
      obtain ⟨s, e⟩ := se
      simp only [hb] at h
      refine ⟨fuel1, s, e, rfl, rfl, ?_⟩
      by_cases hneg : e < 0
      · simp only [hneg, if_true, Option.some.injEq, Except.ok.injEq] at h
        exact Or.inl ⟨hneg, h.symm⟩
      · simp only [hneg, if_false] at h
        exact Or.inr ⟨hneg, buildImporterTree_loop_spec conv fuel1 mergeCells root _ cs h⟩

theorem forall₂_mem_right {α β : Type} {R : α → β → Prop} {l1 : List α} {l2 : List β}
    (h : List.Forall₂ R l1 l2) : ∀ b ∈ l2, ∃ a ∈ l1, R a b := by
  induction h with
  | nil => intro b hb; cases hb
  | cons hab _ ih =>
    intro b hb
    rcases List.mem_cons.mp hb with hb | hb
    · subst hb
      exact ⟨_, List.mem_cons_self _ _, hab⟩
    · obtain ⟨a, ha, hr⟩ := ih b hb
      exact ⟨a, List.mem_cons_of_mem _ ha, hr⟩

theorem forall₂_head {α β : Type} {R : α → β → Prop} {l1 : List α} {l2 : List β}
    (h : List.Forall₂ R l1 l2) : ∀ b, l2.head? = some b → ∃ a, l1.head? = some a ∧ R a b := by
  cases h with
  | nil => intro b hb; cases hb
  | cons hab _ =>
    intro b hb
    simp only [List.head?_cons, Option.some.injEq] at hb
    subst hb
    exact ⟨_, rfl, hab⟩

theorem forall₂_getLast {α β : Type} {R : α → β → Prop} {l1 : List α} {l2 : List β}
    (h : List.Forall₂ R l1 l2) :
    ∀ b, l2.getLast? = some b → ∃ a, l1.getLast? = some a ∧ R a b := by
  induction h with
  | nil => intro b hb; cases hb
  | cons hab hrest ih =>
    intro b hb
    cases hrest with
    | nil =>
      simp only [List.getLast?_singleton, Option.some.injEq] at hb
      subst hb
      exact ⟨_, rfl, hab⟩
    | cons hab1 hrest1 =>
      rw [List.getLast?_cons_cons] at hb
      obtain ⟨a, ha, hr⟩ := ih b hb
      exact ⟨a, by rw [List.getLast?_cons_cons]; exact ha, hr⟩

theorem slice_head (mergeCells : List MergeCell) (a n : Nat) (hn : 0 < n) :
    ((mergeCells.drop a).take n).head? = mergeCells[a]? := by
  rw [List.head?_take, if_neg (by omega), List.head?_drop]

theorem slice_getLast (mergeCells : List MergeCell) (a b : Nat) (hab : a ≤ b)
    (hb : b < mergeCells.length) :
    ((mergeCells.drop a).take (b + 1 - a)).getLast? = mergeCells[b]? := by
  have hlen : ((mergeCells.drop a).take (b + 1 - a)).length = b + 1 - a := by
    rw [List.length_take, List.length_drop]
    omega
  rw [List.getLast?_eq_getElem?, hlen, List.getElem?_take_of_lt (by omega), List.getElem?_drop]
  congr 1
  omega

/-! ## Tree construction: every node of the tree -/

theorem subtrees_eq (t : Importer) : subtrees t = t :: subtrees.children t.childImporters := by
  cases t
  rw [subtrees]

theorem mem_subtrees_children {p : Importer} {cs : List Importer} :
    p ∈ subtrees.children cs ↔ ∃ c ∈ cs, p ∈ subtrees c := by
  induction cs with
  | nil => simp [subtrees.children]
  | cons c rest ih =>
    rw [subtrees.children, List.mem_append, ih]
    simp

theorem buildImporterTree_subtrees (conv : CellNameToCoordinates)
    (mergeCells : List MergeCell) (P : Importer → Prop)
    (hP : ∀ fuel stub cs, buildImporterTree conv fuel stub mergeCells = some (.ok cs) →
      P { stub with childImporters := cs })
    (fuel : Nat) (root : Importer) (children : List Importer)
    (h : buildImporterTree conv fuel root mergeCells = some (.ok children)) :
    ∀ p ∈ subtrees { root with childImporters := children }, P p := by
  induction fuel generalizing root children with
  | zero => simp [buildImporterTree] at h
  | succ fuel ih =>
    intro p hp
    rw [subtrees_eq] at hp
    rcases List.mem_cons.mp hp with hp | hp
    · rw [hp]
      exact hP _ root children h
    · obtain ⟨c, hc, hpc⟩ := mem_subtrees_children.mp hp
      obtain ⟨fuel1, s, e, hfuel, _, hcase⟩ :=
        buildImporterTree_children conv (fuel + 1) root mergeCells children h
      have hfuel1 : fuel1 = fuel := by omega
      subst hfuel1
      rcases hcase with ⟨_, hnil⟩ | ⟨_, hall⟩
      · rw [hnil] at hc
        cases hc
      · obtain ⟨cell, _, node, cs, _, hbuild, hceq⟩ := forall₂_mem_right hall c hc
        rw [hceq] at hpc
        exact ih _ cs hbuild p hpc

theorem builtFrom_fields {conv : CellNameToCoordinates} {fuel : Nat}
    {mergeCells : List MergeCell} {root : Importer} {cell : MergeCell} {child : Importer}
    (h : BuiltFrom conv fuel mergeCells root cell child) :
    child.value = cell.cellValue ∧ child.path = root.path ++ [cell.cellValue]
    ∧ child.asyncScanWorkerNums = root.asyncScanWorkerNums
    ∧ ∀ cs r ce r2, conv cell.startAxis = .ok (cs, r) → conv cell.endAxis = .ok (ce, r2) →
        child.colIndexStart = cs ∧ child.rowIndexStart = r ∧ child.colIndexEnd = ce
        ∧ child.rowIndexEnd = r2 := by
  obtain ⟨node, children, hnode, _, hceq⟩ := h
  unfold buildNodeByCell at hnode
  cases hs : conv cell.startAxis with
  | error err => simp [hs] at hnode
  | ok sp =>
    obtain ⟨cs0, r0⟩ := sp
    cases he : conv cell.endAxis with
    | error err => simp [hs, he] at hnode
    | ok ep =>
      obtain ⟨ce0, r20⟩ := ep
      simp only [hs, he, Except.ok.injEq] at hnode
      subst hnode
      subst hceq
      refine ⟨rfl, by simp [Importer.new], rfl, ?_⟩
      intro cs r ce r2 h1 h2
      simp only [Except.ok.injEq, Prod.mk.injEq] at h1 h2
      exact ⟨h1.1, h1.2, h2.1, h2.2⟩

theorem buildImporterTree_first_last (conv : CellNameToCoordinates) (fuel : Nat)
    (stub : Importer) (mergeCells : List MergeCell) (cs : List Importer)
    (h : buildImporterTree conv fuel stub mergeCells = some (.ok cs)) :
    (∀ c, cs.getLast? = some c →
      c.rowIndexStart > stub.rowIndexEnd ∧ c.colIndexStart ≥ stub.colIndexStart
      ∧ c.colIndexEnd = stub.colIndexEnd)
    ∧ (∀ s e c, childrenColBoundaryIndex conv stub mergeCells = .ok (s, e) → 0 < s →
      cs.head? = some c →
      c.rowIndexStart > stub.rowIndexEnd ∧ c.colIndexStart = stub.colIndexStart
      ∧ c.colIndexEnd ≤ stub.colIndexEnd)
    ∧ (∀ (s e : Int) (k : Nat) (cell : MergeCell) (c : Importer),
        childrenColBoundaryIndex conv stub mergeCells = .ok (s, e) →
      mergeCells[k]? = some cell → Opens conv stub cell → (k : Int) ≤ e →
      cs.head? = some c →
      c.rowIndexStart > stub.rowIndexEnd ∧ c.colIndexStart = stub.colIndexStart
      ∧ c.colIndexEnd ≤ stub.colIndexEnd) := by
  obtain ⟨fuel1, s, e, _, hb, hcase⟩ := buildImporterTree_children conv fuel stub mergeCells cs h
  rcases hcase with ⟨_, hnil⟩ | ⟨hneg, hall⟩
  · subst hnil
    exact ⟨fun c hc => (by cases hc), fun _ _ c _ _ hc => (by cases hc),
      fun _ _ _ _ c _ _ _ _ hc => (by cases hc)⟩
  · obtain ⟨hs0, hse, ⟨cellE, hgetE, hclose⟩, hopen⟩ :=
      childrenColBoundaryIndex_spec conv stub mergeCells s e hb hneg
    have hlt : e.toNat < mergeCells.length := by
      by_contra hc
      rw [List.getElem?_eq_none (by omega)] at hgetE
      cases hgetE
    have hn : (e + 1 - s).toNat = e.toNat + 1 - s.toNat := by omega
    rw [hn] at hall
    refine ⟨?_, ?_, ?_⟩
    · intro c hc
      obtain ⟨cell, hcell, hbuilt⟩ := forall₂_getLast hall c hc
      rw [slice_getLast mergeCells s.toNat e.toNat (by omega) hlt, hgetE] at hcell
      cases hcell
      obtain ⟨cs1, r, ce, r2, h1, h2, hr, hcs, hce⟩ := hclose
      obtain ⟨hx1, hx2, hx3, _⟩ := (builtFrom_fields hbuilt).2.2.2 cs1 r ce r2 h1 h2
      rw [hx1, hx2, hx3]
      exact ⟨hr, hcs, hce⟩
    · intro s1 e1 c hb1 hpos hc
      rw [hb] at hb1
      simp only [Except.ok.injEq, Prod.mk.injEq] at hb1
      obtain ⟨hs1, _⟩ := hb1
      subst hs1
      obtain ⟨cellS, hgetS, hopenS⟩ := hopen hpos
      obtain ⟨cell, hcell, hbuilt⟩ := forall₂_head hall c hc
      rw [slice_head mergeCells s.toNat _ (by omega), hgetS] at hcell
      cases hcell
      obtain ⟨cs1, r, ce, r2, h1, h2, hr, hcs, hce⟩ := hopenS
      obtain ⟨hx1, hx2, hx3, _⟩ := (builtFrom_fields hbuilt).2.2.2 cs1 r ce r2 h1 h2
      rw [hx1, hx2, hx3]
      exact ⟨hr, hcs, hce⟩
    · intro s1 e1 k cellK c hb1 hk hok hke hc
      rw [hb] at hb1
      simp only [Except.ok.injEq, Prod.mk.injEq] at hb1
      obtain ⟨hs1, he1⟩ := hb1
      subst hs1
      subst he1
      obtain ⟨cellS, hgetS, hopenS⟩ :=
        childrenColBoundaryIndex_start_set conv stub mergeCells s e hb k cellK hk hok hke
      obtain ⟨cell, hcell, hbuilt⟩ := forall₂_head hall c hc
      rw [slice_head mergeCells s.toNat _ (by omega), hgetS] at hcell
      cases hcell
      obtain ⟨cs1, r, ce, r2, h1, h2, hr, hcs, hce⟩ := hopenS
      obtain ⟨hx1, hx2, hx3, _⟩ := (builtFrom_fields hbuilt).2.2.2 cs1 r ce r2 h1 h2
      rw [hx1, hx2, hx3]
      exact ⟨hr, hcs, hce⟩

theorem buildImporterTree_first_last_nodes (conv : CellNameToCoordinates) (fuel : Nat)
    (root : Importer) (mergeCells : List MergeCell) (children : List Importer)
    (h : buildImporterTree conv fuel root mergeCells = some (.ok children)) :
    ∀ p ∈ subtrees { root with childImporters := children },
      (∀ c, p.childImporters.getLast? = some c →
        c.rowIndexStart > p.rowIndexEnd ∧ c.colIndexStart ≥ p.colIndexStart
        ∧ c.colIndexEnd = p.colIndexEnd)
      ∧ (∀ s e c, childrenColBoundaryIndex conv p mergeCells = .ok (s, e) → 0 < s →
        p.childImporters.head? = some c →
        c.rowIndexStart > p.rowIndexEnd ∧ c.colIndexStart = p.colIndexStart
        ∧ c.colIndexEnd ≤ p.colIndexEnd)
      ∧ (∀ (s e : Int) (k : Nat) (cell : MergeCell) (c : Importer),
        childrenColBoundaryIndex conv p mergeCells = .ok (s, e) →
        mergeCells[k]? = some cell → Opens conv p cell → (k : Int) ≤ e →
        p.childImporters.head? = some c →
        c.rowIndexStart > p.rowIndexEnd ∧ c.colIndexStart = p.colIndexStart
        ∧ c.colIndexEnd ≤ p.colIndexEnd) := by
  refine buildImporterTree_subtrees conv mergeCells _ ?_ fuel root children h
  intro fuel1 stub cs hbuild
  have hfl := buildImporterTree_first_last conv fuel1 stub mergeCells cs hbuild
  refine ⟨hfl.1, ?_, ?_⟩
  · intro s e c hb
    rw [childrenColBoundaryIndex_with_children] at hb
    exact hfl.2.1 s e c hb
  · intro s e k cell c hb hk hok
    rw [childrenColBoundaryIndex_with_children] at hb
    exact hfl.2.2 s e k cell c hb hk hok

/-! ## Column containment (C8) -/

/-- C8, as stated, fails. On `middleSpans`, whose spans all lie in the columns 1 to 4
of the sheet, the tree is returned and the node `P` (columns 2 to 3) has the child
`X` in column 4, a span lying between the start and the end index of `P`. On
`defaultStartSpans` the node `P` (columns 1 to 2) has the first child `S` in column
3, no span having set the start index of `P`. -/
theorem column_containment_counterexample :
    (∃ children, buildImporterTree cellNameToCoordinates 3 wideStub middleSpans
        = some (.ok children)
      ∧ ∃ p ∈ subtrees { wideStub with childImporters := children },
          ∃ c ∈ p.childImporters,
            (p.value, p.colIndexStart, p.colIndexEnd) = ("P", 2, 3)
            ∧ p.childImporters.map (fun n => n.value) = ["a", "X", "c"]
            ∧ (c.value, c.colIndexStart, c.colIndexEnd) = ("X", 4, 4)
            ∧ ¬ (c.colIndexStart ≥ p.colIndexStart ∧ c.colIndexEnd ≤ p.colIndexEnd))
    ∧ (∃ children, buildImporterTree cellNameToCoordinates 3 wideStub defaultStartSpans
        = some (.ok children)
      ∧ ∃ p ∈ subtrees { wideStub with childImporters := children },
          ∃ c ∈ p.childImporters,
            (p.value, p.colIndexStart, p.colIndexEnd) = ("P", 1, 2)
            ∧ p.childImporters.map (fun n => n.value) = ["S", "Z"]
            ∧ (c.value, c.colIndexStart, c.colIndexEnd) = ("S", 3, 3)
            ∧ ¬ (c.colIndexStart ≥ p.colIndexStart ∧ c.colIndexEnd ≤ p.colIndexEnd)) :=
  ⟨⟨_, rfl, by decide⟩, ⟨_, rfl, by decide⟩⟩

/-- C8, amended. In every tree that `buildImporterTree` returns, the last child of
every node (the span at the end index) satisfies `child.colStart >= parent.colStart`
and `child.colEnd <= parent.colEnd`, and so does the first child (the span at the
start index) whenever a span sets the start index of the node: some span at or
before the end index passes the guard of `childrenColBoundaryIndex` and starts at
the first column of the node. -/
theorem buildImporterTree_column_containment (conv : CellNameToCoordinates) (fuel : Nat)
    (root : Importer) (mergeCells : List MergeCell) (children : List Importer)
    (h : buildImporterTree conv fuel root mergeCells = some (.ok children)) :
    ∀ p ∈ subtrees { root with childImporters := children },
      (∀ c, p.childImporters.getLast? = some c →
        c.colIndexStart ≥ p.colIndexStart ∧ c.colIndexEnd ≤ p.colIndexEnd)
      ∧ (∀ (s e : Int) (k : Nat) (cell : MergeCell) (c : Importer),
        childrenColBoundaryIndex conv p mergeCells = .ok (s, e) →
        mergeCells[k]? = some cell → Opens conv p cell → (k : Int) ≤ e →
        p.childImporters.head? = some c →
        c.colIndexStart ≥ p.colIndexStart ∧ c.colIndexEnd ≤ p.colIndexEnd) := by
  intro p hp
  obtain ⟨hlast, _, hfirst⟩ :=
    buildImporterTree_first_last_nodes conv fuel root mergeCells children h p hp
  constructor
  · intro c hc
    obtain ⟨_, h2, h3⟩ := hlast c hc
    exact ⟨h2, le_of_eq h3⟩
  · intro s e k cell c hb hk hok hke hc
    obtain ⟨_, h2, h3⟩ := hfirst s e k cell c hb hk hok hke hc
    exact ⟨le_of_eq h2.symm, h3⟩

/-- C8, witness: in the example tree the span `X` at index 0 sets the start index
of the sheet root, whose first child `X` lies within the columns 1 to 2 of the
root; the node `X` has the last child `Z` and, the span `Y` at index 1 setting its
start index, the first child `Y`, both within its columns. -/
theorem buildImporterTree_column_containment_witness :
    (exampleNodeX.colIndexStart ≥ exampleRoot.colIndexStart
      ∧ exampleNodeX.colIndexEnd ≤ exampleRoot.colIndexEnd)
    ∧ (exampleLeafZ.colIndexStart ≥ exampleNodeX.colIndexStart
      ∧ exampleLeafZ.colIndexEnd ≤ exampleNodeX.colIndexEnd)
    ∧ (exampleLeafY.colIndexStart ≥ exampleNodeX.colIndexStart
      ∧ exampleLeafY.colIndexEnd ≤ exampleNodeX.colIndexEnd) :=
  have hr := buildImporterTree_column_containment cellNameToCoordinates 3 exampleStub
    exampleSpans [exampleNodeX] rfl exampleRoot
    (by rw [subtrees_eq]; exact List.mem_cons_self _ _)
  have hx := buildImporterTree_column_containment cellNameToCoordinates 3 exampleStub
    exampleSpans [exampleNodeX] rfl exampleNodeX
    (by simp [subtrees, subtrees.children, exampleNodeX])
  ⟨hr.2 0 0 0 ⟨"A1", "B1", "X"⟩ exampleNodeX rfl rfl
      ⟨1, 1, 2, 1, rfl, rfl, by decide, rfl, by decide⟩ (by decide) rfl,
   hx.1 exampleLeafZ rfl,
   hx.2 1 2 1 ⟨"A2", "A2", "Y"⟩ exampleLeafY rfl rfl
      ⟨1, 2, 1, 2, rfl, rfl, by decide, rfl, by decide⟩ (by decide) rfl⟩

/-! ## Row nesting (C9) -/

/-- C9, as stated, fails. On `middleSpans`, whose spans all lie in the columns 1 to 4
of the sheet, the tree is returned and the node `P` (row 1) has the child `X` in
row 1, a span lying between the start and the end index of `P`. On
`defaultStartSpans` the node `P` (row 1) has the first child `S` in row 1, no span
having set the start index of `P`. -/
theorem row_nesting_counterexample :
    (∃ children, buildImporterTree cellNameToCoordinates 3 wideStub middleSpans
        = some (.ok children)
      ∧ ∃ p ∈ subtrees { wideStub with childImporters := children },
          ∃ c ∈ p.childImporters,
            (p.value, p.rowIndexStart, p.rowIndexEnd) = ("P", 1, 1)
            ∧ p.childImporters.map (fun n => n.value) = ["a", "X", "c"]
            ∧ (c.value, c.rowIndexStart, c.rowIndexEnd) = ("X", 1, 1)
            ∧ ¬ c.rowIndexStart > p.rowIndexEnd)
    ∧ (∃ children, buildImporterTree cellNameToCoordinates 3 wideStub defaultStartSpans
        = some (.ok children)
      ∧ ∃ p ∈ subtrees { wideStub with childImporters := children },
          ∃ c ∈ p.childImporters,
            (p.value, p.rowIndexStart, p.rowIndexEnd) = ("P", 1, 1)
            ∧ p.childImporters.map (fun n => n.value) = ["S", "Z"]
            ∧ (c.value, c.rowIndexStart, c.rowIndexEnd) = ("S", 1, 1)
            ∧ ¬ c.rowIndexStart > p.rowIndexEnd) :=
  ⟨⟨_, rfl, by decide⟩, ⟨_, rfl, by decide⟩⟩

/-- C9, amended. In every tree that `buildImporterTree` returns, the last child of
every node (the span at the end index) satisfies `child.rowStart > parent.rowEnd`,
and so does the first child (the span at the start index) whenever a span sets the
start index of the node: some span at or before the end index passes the guard of
`childrenColBoundaryIndex` and starts at the first column of the node. -/
theorem buildImporterTree_row_nesting (conv : CellNameToCoordinates) (fuel : Nat)
    (root : Importer) (mergeCells : List MergeCell) (children : List Importer)
    (h : buildImporterTree conv fuel root mergeCells = some (.ok children)) :
    ∀ p ∈ subtrees { root with childImporters := children },
      (∀ c, p.childImporters.getLast? = some c → c.rowIndexStart > p.rowIndexEnd)
      ∧ (∀ (s e : Int) (k : Nat) (cell : MergeCell) (c : Importer),
        childrenColBoundaryIndex conv p mergeCells = .ok (s, e) →
        mergeCells[k]? = some cell → Opens conv p cell → (k : Int) ≤ e →
        p.childImporters.head? = some c → c.rowIndexStart > p.rowIndexEnd) := by
  intro p hp
  obtain ⟨hlast, _, hfirst⟩ :=
    buildImporterTree_first_last_nodes conv fuel root mergeCells children h p hp
  exact ⟨fun c hc => (hlast c hc).1,
    fun s e k cell c hb hk hok hke hc => (hfirst s e k cell c hb hk hok hke hc).1⟩

/-- C9, witness: in the example tree the span `X` at index 0 sets the start index
of the sheet root (`rowEnd` 0), whose first child `X` is in row 1; the node `X`
(row 1) has the last child `Z` and, the span `Y` at index 1 setting its start
index, the first child `Y`, both in row 2. -/
theorem buildImporterTree_row_nesting_witness :
    exampleNodeX.rowIndexStart > exampleRoot.rowIndexEnd
    ∧ exampleLeafZ.rowIndexStart > exampleNodeX.rowIndexEnd
    ∧ exampleLeafY.rowIndexStart > exampleNodeX.rowIndexEnd :=
  have hr := buildImporterTree_row_nesting cellNameToCoordinates 3 exampleStub
    exampleSpans [exampleNodeX] rfl exampleRoot
    (by rw [subtrees_eq]; exact List.mem_cons_self _ _)
  have hx := buildImporterTree_row_nesting cellNameToCoordinates 3 exampleStub
    exampleSpans [exampleNodeX] rfl exampleNodeX
    (by simp [subtrees, subtrees.children, exampleNodeX])
  ⟨hr.2 0 0 0 ⟨"A1", "B1", "X"⟩ exampleNodeX rfl rfl
      ⟨1, 1, 2, 1, rfl, rfl, by decide, rfl, by decide⟩ (by decide) rfl,
   hx.1 exampleLeafZ rfl,
   hx.2 1 2 1 ⟨"A2", "A2", "Y"⟩ exampleLeafY rfl rfl
      ⟨1, 2, 1, 2, rfl, rfl, by decide, rfl, by decide⟩ (by decide) rfl⟩

/-! ## Paths (C10) -/

theorem buildImporterTree_child_paths (conv : CellNameToCoordinates) (fuel : Nat)
    (root : Importer) (mergeCells : List MergeCell) (children : List Importer)
    (h : buildImporterTree conv fuel root mergeCells = some (.ok children)) :
    ∀ p ∈ subtrees { root with childImporters := children },
      ∀ c ∈ p.childImporters, c.path = p.path ++ [c.value] := by
  refine buildImporterTree_subtrees conv mergeCells _ ?_ fuel root children h
  intro fuel1 stub cs hbuild c hc
  obtain ⟨fuel2, s, e, _, _, hcase⟩ :=
    buildImporterTree_children conv fuel1 stub mergeCells cs hbuild
  rcases hcase with ⟨_, hnil⟩ | ⟨_, hall⟩
  · subst hnil
    cases hc
  · obtain ⟨cell, _, hbuilt⟩ := forall₂_mem_right hall c hc
    obtain ⟨hv, hpath, _⟩ := builtFrom_fields hbuilt
    rw [hpath, hv]

mutual
theorem nodesWithTrail_path : ∀ (t : Importer) (d : Nat) (trail : List String),
    (∀ p ∈ subtrees t, ∀ c ∈ p.childImporters, c.path = p.path ++ [c.value]) →
    t.path = trail → trail.length = d →
    ∀ x ∈ nodesWithTrail d trail t, x.2.2.path = x.2.1 ∧ x.2.1.length = x.1
  | ⟨value, cs, ce, rs, re, path, childImporters, leafNodes, workers, human⟩, d, trail,
      h, ht, hd => by
    intro x hx
    rw [nodesWithTrail] at hx
    rcases List.mem_cons.mp hx with hx | hx
    · subst hx
      exact ⟨ht, hd⟩
    · refine nodesWithTrail_children_path childImporters d trail ?_ ?_ hd x hx
      · intro q hq
        exact h q (by rw [subtrees]; exact List.mem_cons_of_mem _ hq)
      · intro k hk
        have hpk := h _ (by rw [subtrees]; exact List.mem_cons_self _ _) k hk
        rw [hpk]
        exact congrArg (fun l => l ++ [k.value]) ht
theorem nodesWithTrail_children_path : ∀ (cs : List Importer) (d : Nat)
    (trail : List String),
    (∀ p ∈ subtrees.children cs, ∀ c ∈ p.childImporters, c.path = p.path ++ [c.value]) →
    (∀ k ∈ cs, k.path = trail ++ [k.value]) → trail.length = d →
    ∀ x ∈ nodesWithTrail.children d trail cs, x.2.2.path = x.2.1 ∧ x.2.1.length = x.1
  | [], _, _, _, _, _ => by
    intro x hx
    simp [nodesWithTrail.children] at hx
  | k :: rest, d, trail, h, hk, hd => by
    intro x hx
    rw [nodesWithTrail.children] at hx
    rcases List.mem_append.mp hx with hx | hx
    · exact nodesWithTrail_path k (d + 1) (trail ++ [k.value])
        (fun q hq => h q (by rw [subtrees.children]; exact List.mem_append_left _ hq))
        (hk k (List.mem_cons_self _ _)) (by simp [hd]) x hx
    · exact nodesWithTrail_children_path rest d trail
        (fun q hq => h q (by rw [subtrees.children]; exact List.mem_append_right _ hq))
        (fun k2 hk2 => hk k2 (List.mem_cons_of_mem _ hk2)) hd x hx
end

mutual
theorem leavesWithTrail_mem : ∀ (t : Importer) (d : Nat) (trail : List String),
    ∀ x ∈ leavesWithTrail d trail t, x ∈ nodesWithTrail d trail t
  | ⟨value, cs, ce, rs, re, path, childImporters, leafNodes, workers, human⟩, d, trail => by
    intro x hx
    cases childImporters with
    | nil =>
      rw [leavesWithTrail] at hx
      rw [nodesWithTrail, List.mem_singleton.mp hx]
      exact List.mem_cons_self _ _
    | cons im rest =>
      rw [leavesWithTrail] at hx
      rw [nodesWithTrail]
      exact List.mem_cons_of_mem _ (leavesWithTrail_children_mem (im :: rest) d trail x hx)
theorem leavesWithTrail_children_mem : ∀ (cs : List Importer) (d : Nat)
    (trail : List String),
    ∀ x ∈ leavesWithTrail.children d trail cs, x ∈ nodesWithTrail.children d trail cs
  | [], _, _ => by
    intro x hx
    simp [leavesWithTrail.children] at hx
  | k :: rest, d, trail => by
    intro x hx
    rw [leavesWithTrail.children] at hx
    rw [nodesWithTrail.children]
    rcases List.mem_append.mp hx with hx | hx
    · exact List.mem_append_left _ (leavesWithTrail_mem k (d + 1) (trail ++ [k.value]) x hx)
    · exact List.mem_append_right _ (leavesWithTrail_children_mem rest d trail x hx)
end

mutual
theorem leavesWithTrail_nodes : ∀ (t : Importer) (d : Nat) (trail : List String),
    (leavesWithTrail d trail t).map (fun x => x.2.2) = getLeafNodes t
  | ⟨value, cs, ce, rs, re, path, childImporters, leafNodes, workers, human⟩, d, trail => by
    cases childImporters with
    | nil =>
      rw [leavesWithTrail, getLeafNodes]
      rfl
    | cons im rest =>
      rw [leavesWithTrail, getLeafNodes]
      exact leavesWithTrail_children_nodes (im :: rest) d trail
theorem leavesWithTrail_children_nodes : ∀ (cs : List Importer) (d : Nat)
    (trail : List String),
    (leavesWithTrail.children d trail cs).map (fun x => x.2.2) = getLeafNodes.children cs
  | [], _, _ => by
    rw [leavesWithTrail.children, getLeafNodes.children]
    rfl
  | k :: rest, d, trail => by
    rw [leavesWithTrail.children, getLeafNodes.children, List.map_append,
      leavesWithTrail_nodes k (d + 1) (trail ++ [k.value]),
      leavesWithTrail_children_nodes rest d trail]
end

/-- C10. In every tree that `buildImporterTree` returns for a root with empty path,
the path of each node is the path of its parent followed by the label of the node;
hence the path of a node is its trail, the labels of its ancestors from the
top-level header down to itself, and its length is the depth of the node below the
root. The leaves of `getLeafNodes` are among these nodes, so the path length of each
leaf is its depth. -/
theorem buildImporterTree_path_invariant (conv : CellNameToCoordinates) (fuel : Nat)
    (root : Importer) (mergeCells : List MergeCell) (children : List Importer)
    (h : buildImporterTree conv fuel root mergeCells = some (.ok children))
    (hroot : root.path = []) :
    (∀ p ∈ subtrees { root with childImporters := children },
      ∀ c ∈ p.childImporters, c.path = p.path ++ [c.value])
    ∧ (∀ x ∈ nodesWithTrail 0 [] { root with childImporters := children },
        x.2.2.path = x.2.1 ∧ x.2.2.path.length = x.1)
    ∧ (leavesWithTrail 0 [] { root with childImporters := children }).map (fun x => x.2.2)
        = getLeafNodes { root with childImporters := children }
    ∧ (∀ x ∈ leavesWithTrail 0 [] { root with childImporters := children },
        x.2.2.path = x.2.1 ∧ x.2.2.path.length = x.1) := by
  have hpaths := buildImporterTree_child_paths conv fuel root mergeCells children h
  have hnodes : ∀ x ∈ nodesWithTrail 0 [] { root with childImporters := children },
      x.2.2.path = x.2.1 ∧ x.2.2.path.length = x.1 := by
    intro x hx
    obtain ⟨h1, h2⟩ := nodesWithTrail_path { root with childImporters := children } 0 []
      hpaths hroot rfl x hx
    exact ⟨h1, by rw [h1]; exact h2⟩
  exact ⟨hpaths, hnodes, leavesWithTrail_nodes _ 0 [],
    fun x hx => hnodes x (leavesWithTrail_mem _ 0 [] x hx)⟩

/-- C10, witness: in the example tree the leaves are `Y` and `Z`, at depth 2, with
the paths `X, Y` and `X, Z`. -/
theorem buildImporterTree_path_invariant_witness :
    leavesWithTrail 0 [] exampleRoot
      = [(2, ["X", "Y"], exampleLeafY), (2, ["X", "Z"], exampleLeafZ)]
    ∧ getLeafNodes exampleRoot = [exampleLeafY, exampleLeafZ]
    ∧ (exampleLeafY.path = ["X", "Y"] ∧ exampleLeafY.path.length = 2)
    ∧ (exampleLeafZ.path = ["X", "Z"] ∧ exampleLeafZ.path.length = 2) :=
  have hx := buildImporterTree_path_invariant cellNameToCoordinates 3 exampleStub
    exampleSpans [exampleNodeX] rfl rfl
  ⟨rfl, hx.2.2.1.symm.trans rfl,
   hx.2.2.2 (2, ["X", "Y"], exampleLeafY) (List.mem_cons_self _ _),
   hx.2.2.2 (2, ["X", "Z"], exampleLeafZ)
     (List.mem_cons_of_mem _ (List.mem_cons_self _ _))⟩

/-! ## Leaf index of a childless root (C11) -/

/-- C11, as stated, fails: the sheet root `exampleStub` has no children and
`getLeafNodes` returns a list of one node for it, the root itself. -/
theorem getLeafNodes_childless_counterexample :
    exampleStub.childImporters = [] ∧ (getLeafNodes exampleStub).length = 1
    ∧ getLeafNodes exampleStub ≠ [] :=
  ⟨rfl, rfl, fun h => by simp [getLeafNodes, exampleStub, Importer.new] at h⟩

/-- C11, amended. For a sheet root that has no children, the leaf list computed by
`getLeafNodes` is the one-element list holding the root itself, and so is the leaf
index of the scanners when nothing is cached. -/
theorem getLeafNodes_childless (root : Importer) (h : root.childImporters = []) :
    getLeafNodes root = [root] ∧ (root.leafNodes = [] → leafIndex root = [root]) := by
  have hleaf : getLeafNodes root = [root] := by
    obtain ⟨value, cs, ce, rs, re, path, childImporters, leafNodes, workers, human⟩ := root
    simp only at h
    subst h
    rw [getLeafNodes]
  refine ⟨hleaf, ?_⟩
  intro hcache
  unfold leafIndex
  rw [hcache, hleaf]
  rfl

/-- C11, witness: the leaf list of the childless root `exampleStub` is the root. -/
theorem getLeafNodes_childless_witness :
    getLeafNodes exampleStub = [exampleStub] ∧ leafIndex exampleStub = [exampleStub] :=
  ⟨(getLeafNodes_childless exampleStub rfl).1, (getLeafNodes_childless exampleStub rfl).2 rfl⟩

/-! ## Data row start (C12) -/

mutual
theorem getRowsBeginIndex_head : ∀ (t : Importer),
    ∃ l rest, getLeafNodes t = l :: rest ∧ getRowsBeginIndex t = l.rowIndexEnd
  | ⟨value, cs, ce, rs, re, path, childImporters, leafNodes, workers, human⟩ => by
    cases childImporters with
    | nil =>
      refine ⟨⟨value, cs, ce, rs, re, path, [], leafNodes, workers, human⟩, [], ?_, ?_⟩
      · rw [getLeafNodes]
      · rw [getRowsBeginIndex, getRowsBeginIndex.first]
    | cons im rest =>
      rw [getLeafNodes, getRowsBeginIndex]
      exact getRowsBeginIndex_first_head im rest re
theorem getRowsBeginIndex_first_head : ∀ (im : Importer) (more : List Importer) (re : Int),
    ∃ l rest, getLeafNodes.children (im :: more) = l :: rest
      ∧ getRowsBeginIndex.first re (im :: more) = l.rowIndexEnd
  | im, more, re => by
    obtain ⟨l, rest, hl, hr⟩ := getRowsBeginIndex_head im
    refine ⟨l, rest ++ getLeafNodes.children more, ?_, ?_⟩
    · rw [getLeafNodes.children, hl, List.cons_append]
    · rw [getRowsBeginIndex.first, hr]
end

theorem getSheetRowsWithoutHeader_loop (rowBeginIndex : Int)
    (rows : List (Option (List String))) (i : Nat) :
    GetSheetRowsWithoutHeader.loop rowBeginIndex rows i
      = (rows.drop (rowBeginIndex.toNat - i)).reduceOption := by
  induction rows generalizing i with
  | nil => simp [GetSheetRowsWithoutHeader.loop]
  | cons row rest ih =>
    cases row with
    | none =>
      rw [GetSheetRowsWithoutHeader.loop, ih]
      by_cases hlt : (i : Int) < rowBeginIndex
      · have hd : rowBeginIndex.toNat - i = (rowBeginIndex.toNat - (i + 1)) + 1 := by omega
        rw [hd, List.drop_succ_cons]
      · have hd : rowBeginIndex.toNat - i = 0 := by omega
        have hd1 : rowBeginIndex.toNat - (i + 1) = 0 := by omega
        rw [hd, hd1, List.drop_zero, List.drop_zero, List.reduceOption_cons_of_none]
    | some r =>
      rw [GetSheetRowsWithoutHeader.loop]
      by_cases hlt : (i : Int) < rowBeginIndex
      · have hd : rowBeginIndex.toNat - i = (rowBeginIndex.toNat - (i + 1)) + 1 := by omega
        rw [if_pos hlt, ih, hd, List.drop_succ_cons]
      · have hd : rowBeginIndex.toNat - i = 0 := by omega
        have hd1 : rowBeginIndex.toNat - (i + 1) = 0 := by omega
        rw [if_neg hlt, ih, hd, hd1, List.drop_zero, List.drop_zero,
          List.reduceOption_cons_of_some]

/-- C12, at the failing input. On `unevenSpans` the tree is returned, `getRowsBeginIndex`
follows the first children to the leaf `a` and returns its `rowEnd` 1, while the
leaves `p1` and `p2` have the `rowEnd` 2, so the result is not the largest `rowEnd`
among the leaves; `GetSheetRowsWithoutHeader` then returns the second header row
`["", "p1", "p2"]` as a data row, where its doc comment promises all rows except
the header rows. -/
theorem getRowsBeginIndex_returns_header_row :
    ∃ children, buildImporterTree cellNameToCoordinates 3 threeColumnStub unevenSpans
        = some (.ok children)
      ∧ getRowsBeginIndex { threeColumnStub with childImporters := children } = 1
      ∧ (getLeafNodes { threeColumnStub with childImporters := children }).map
          (fun l => (l.value, l.rowIndexEnd)) = [("a", 1), ("p1", 2), ("p2", 2)]
      ∧ ¬ IsLargestLeafRowEnd { threeColumnStub with childImporters := children }
          (getRowsBeginIndex { threeColumnStub with childImporters := children })
      ∧ GetSheetRowsWithoutHeader { threeColumnStub with childImporters := children }
          (.ok [some ["a", "P"], some ["", "p1", "p2"], some ["1", "2", "3"]])
          = .ok [["", "p1", "p2"], ["1", "2", "3"]] :=
  ⟨_, rfl, by decide, by decide, by unfold IsLargestLeafRowEnd; decide, rfl⟩

/-- What the two functions compute on every tree: `getRowsBeginIndex(root)` is the
`rowEnd` of the first leaf of the tree in leaf order; it is the largest `rowEnd`
among all leaves exactly when no leaf has a `rowEnd` above that of the first leaf;
and `GetSheetRowsWithoutHeader` skips the rows with 0-based index below it, and
the nil rows. -/
theorem getRowsBeginIndex_first_leaf (root : Importer) (rows : List (Option (List String))) :
    (∃ l rest, getLeafNodes root = l :: rest ∧ getRowsBeginIndex root = l.rowIndexEnd)
    ∧ (IsLargestLeafRowEnd root (getRowsBeginIndex root) ↔
        ∀ l ∈ getLeafNodes root, l.rowIndexEnd ≤ getRowsBeginIndex root)
    ∧ GetSheetRowsWithoutHeader root (.ok rows)
        = .ok ((rows.drop (getRowsBeginIndex root).toNat).reduceOption) := by
  obtain ⟨l, rest, hl, hr⟩ := getRowsBeginIndex_head root
  refine ⟨⟨l, rest, hl, hr⟩, ?_, ?_⟩
  · constructor
    · intro h
      exact h.2
    · intro h
      exact ⟨⟨l, by rw [hl]; exact List.mem_cons_self _ _, hr.symm⟩, h⟩
  · simp only [GetSheetRowsWithoutHeader, getSheetRowsWithoutHeader_loop, Nat.sub_zero]

/-! ## Sub-tree lookup from the sheet root (C13) -/

/-- C13, at the failing input: in the example tree the top-level header `X` has the
path `X`, and `SubImporter(root, "X")` returns nil, the one-label path being compared
with the value of the sheet root before the root is skipped; the two-label path
`X|Y` is found. -/
theorem subImporter_single_label_not_found :
    exampleNodeX ∈ exampleRoot.childImporters
    ∧ stringsJoin exampleNodeX.path "|" = "X"
    ∧ SubImporter exampleRoot "X" = none
    ∧ stringsJoin exampleLeafY.path "|" = "X|Y"
    ∧ (SubImporter exampleRoot "X|Y").map (fun node => node.path) = some ["X", "Y"] :=
  ⟨List.mem_cons_self _ _, by decide, rfl, by decide, by decide⟩

/-! ## Unmatched field in relative mode (C14) -/

/-- C14, at the failing input: on the example tree, whose leaf paths have two
labels, a field bound to `Q|X|Y` is the trailing suffix of no leaf path;
`ScanExRow` leaves it unchanged and returns no error, while `RelativeScanExRow`
returns the error made from the recovered slice panic. -/
theorem relativeScanExRow_longer_path_error :
    (∀ l ∈ leafIndex exampleRoot, ¬ ∃ front, l.path = front ++ stringsSplit "Q|X|Y" '|')
    ∧ (ScanExRow exampleTranslate exampleRoot ["1", "2"] [[⟨"Q|X|Y", "zero"⟩]]).err = none
    ∧ (RelativeScanExRow exampleTranslate exampleRoot ["1", "2"] [[⟨"Q|X|Y", "zero"⟩]]).err
        = some (.internal
            "ScanExRow: internal error: runtime error: slice bounds out of range [-1:]")
    ∧ (RelativeScanExRow exampleTranslate exampleRoot ["1", "2"]
        [[⟨"Q|X|Y", "zero"⟩]]).scanErrColIndex = 0
    ∧ (RelativeScanExRow exampleTranslate exampleRoot ["1", "2"]
        [[⟨"Q|X|Y", "zero"⟩]]).resps.map (fun resp => resp.map (fun field => field.value))
        = [["zero"]] := by
  refine ⟨?_, by decide, by decide, by decide, by decide⟩
  intro l hl
  have hleaves : leafIndex exampleRoot = [exampleLeafY, exampleLeafZ] := rfl
  have hpath : stringsSplit "Q|X|Y" '|' = ["Q", "X", "Y"] := by decide
  rw [hleaves] at hl
  rw [hpath]
  rintro ⟨front, hfront⟩
  have hlen := congrArg List.length hfront
  simp only [List.mem_cons, List.mem_singleton, List.not_mem_nil, or_false] at hl
  rcases hl with hl | hl <;> subst hl <;>
    simp [exampleLeafY, exampleLeafZ, Importer.new] at hlen

/-- The same panic stops a field that matches a later leaf: on the tree of
`unevenSpans`, whose first leaf has the one-label path `a`, the field bound to
`P|p1` is the trailing suffix of the second leaf path, and `RelativeScanExRow`
returns the internal error at the first leaf, while `ScanExRow` sets the field. -/
theorem relativeScanExRow_shorter_earlier_leaf :
    ∃ children, buildImporterTree cellNameToCoordinates 3 threeColumnStub unevenSpans
        = some (.ok children)
      ∧ (RelativeScanExRow exampleTranslate { threeColumnStub with childImporters := children }
          ["1", "2", "3"] [[⟨"P|p1", "zero"⟩]]).err
          = some (.internal
              "ScanExRow: internal error: runtime error: slice bounds out of range [-1:]")
      ∧ (ScanExRow exampleTranslate { threeColumnStub with childImporters := children }
          ["1", "2", "3"] [[⟨"P|p1", "zero"⟩]]).resps.map
            (fun resp => resp.map (fun field => field.value)) = [["2"]] :=
  ⟨_, rfl, by decide, by decide⟩

/-! ## Termination of tree construction (C15) -/

theorem selfChild_node_boundary (conv : CellNameToCoordinates)
    (hA1 : conv "A1" = .ok (1, 1)) (hB1 : conv "B1" = .ok (2, 1))
    (hB2 : conv "B2" = .ok (2, 2)) (node : Importer) (h1 : node.colIndexStart = 1)
    (h2 : node.colIndexEnd = 2) (h3 : node.rowIndexEnd = 1) :
    childrenColBoundaryIndex conv node selfChildSpans = .ok (0, 1) := by
  simp [childrenColBoundaryIndex, childrenColBoundaryIndex.loop, selfChildSpans, hA1, hB1,
    hB2, h1, h2, h3]

theorem selfChild_node_none (conv : CellNameToCoordinates)
    (hA1 : conv "A1" = .ok (1, 1)) (hB1 : conv "B1" = .ok (2, 1))
    (hB2 : conv "B2" = .ok (2, 2)) (fuel : Nat) (node : Importer)
    (h1 : node.colIndexStart = 1) (h2 : node.colIndexEnd = 2) (h3 : node.rowIndexEnd = 1) :
    buildImporterTree conv fuel node selfChildSpans = none := by
  induction fuel generalizing node with
  | zero => rfl
  | succ fuel ih =>
    rw [buildImporterTree, selfChild_node_boundary conv hA1 hB1 hB2 node h1 h2 h3]
    have hslice : (selfChildSpans.drop (0 : Int).toNat).take ((1 : Int) + 1 - 0).toNat
        = [⟨"A1", "B1", "X"⟩, ⟨"B2", "B2", "Z"⟩] := rfl
    simp only [show ¬ ((1 : Int) < 0) by decide, if_false, hslice]
    unfold buildImporterTree.loop
    simp only [buildNodeByCell, hA1, hB1]
    rw [ih _ rfl rfl rfl]

/-- C15, at the failing input: for the root covering the columns 1 to 2 with
`rowEnd` 0 and the spans `A1:B1 X, B2:B2 Z`, `buildImporterTree` returns nothing for
any bound on the depth of its recursion. The root takes the span range 0 to 0, the
span `X`; the node built from `X` takes the range 0 to 1, whose first span is `X`
again, and so does every node built from it. -/
theorem buildImporterTree_self_child_never_returns (fuel : Nat) :
    buildImporterTree cellNameToCoordinates fuel exampleStub selfChildSpans = none
    ∧ childrenColBoundaryIndex cellNameToCoordinates exampleStub selfChildSpans = .ok (0, 0)
    ∧ selfChildSpans[0]? = some ⟨"A1", "B1", "X"⟩
    ∧ ∃ x, buildNodeByCell cellNameToCoordinates ⟨"A1", "B1", "X"⟩ = .ok x
        ∧ childrenColBoundaryIndex cellNameToCoordinates x selfChildSpans = .ok (0, 1) := by
  refine ⟨?_, rfl, rfl, _, rfl, rfl⟩
  cases fuel with
  | zero => rfl
  | succ fuel =>
    have hb : childrenColBoundaryIndex cellNameToCoordinates exampleStub selfChildSpans
        = .ok (0, 0) := rfl
    have hslice : (selfChildSpans.drop (0 : Int).toNat).take ((0 : Int) + 1 - 0).toNat
        = [⟨"A1", "B1", "X"⟩] := rfl
    have hnode : buildNodeByCell cellNameToCoordinates ⟨"A1", "B1", "X"⟩
        = .ok { Importer.new with
                value := "X", colIndexStart := 1, colIndexEnd := 2, rowIndexStart := 1,
                rowIndexEnd := 1 } := rfl
    rw [buildImporterTree, hb]
    simp only [show ¬ ((0 : Int) < 0) by decide, if_false, hslice]
    unfold buildImporterTree.loop
    simp only [hnode]
    rw [selfChild_node_none cellNameToCoordinates rfl rfl rfl fuel _ rfl rfl rfl]

end ExcelPkg
